import Mathlib

/-!
Verification of the `mst` package: a shallow embedding of
`src/mst/graph.py` (Prim's algorithm) and `src/mst/bfs.py` (breadth-first
search), with theorems checking the repository's specification.

Edge weights are modelled as rationals: the Python code never performs
arithmetic on weights, it only compares and copies them, so the ordered
field of floats is modelled faithfully by `ℚ`.
-/

namespace MstProj

/-- An `n × n` adjacency matrix with rational entries. -/
abbrev Mat (n : ℕ) : Type := Fin n → Fin n → ℚ

/-! ### Model of `src/mst/bfs.py` -/

/-- Failure modes of the BFS model.  The Python loops are unbounded; the model
is fuel-bounded, and running out of fuel is a distinguished outcome.  A missing
dictionary key in `__trace_path` is a Python `KeyError`. -/
inductive PyErr : Type where
  | outOfFuel : PyErr
  | traceOutOfFuel : PyErr
  | keyError : PyErr
deriving DecidableEq

/-- Neighbors of `u` in the `networkx` graph built from the matrix
(`nx.Graph(self.adj_mat)` in `BFS.__init__`): the vertices `j` joined to `u` by
a nonzero entry, iterated in increasing index order. -/
def nbrList {n : ℕ} (A : Mat n) (u : Fin n) : List (Fin n) :=
  (List.finRange n).filter (fun j => decide (A u j ≠ 0 ∨ A j u ≠ 0))

/-- The mutable state of `BFS.bfs`: the parent dictionary, the visited list and
the FIFO queue. -/
structure BfsSt (n : ℕ) : Type where
  parent : Fin n → Option (Fin n)
  visited : List (Fin n)
  queue : List (Fin n)

/-- The neighbor loop of `BFS.bfs`: every not-yet-visited neighbor gets its
parent recorded, is appended to the queue and appended to the visited list. -/
def bfsExpand {n : ℕ} (current : Fin n) : List (Fin n) → BfsSt n → BfsSt n
  | [], st => st
  | nb :: rest, st =>
      if nb ∈ st.visited then bfsExpand current rest st
      else bfsExpand current rest
        { parent := fun x => if x = nb then some current else st.parent x
          visited := st.visited ++ [nb]
          queue := st.queue ++ [nb] }

/-- The back-trace loop of `BFS.__trace_path`, walking parent pointers from the
end vertex.  The accumulator keeps the most recently found vertex first, so the
returned list is already ordered start → end, matching the `path[::-1]`
reversal in the Python code. -/
def traceWalk {n : ℕ} (parent : Fin n → Option (Fin n)) (start : Fin n) :
    ℕ → List (Fin n) → Fin n → Except PyErr (List (Fin n))
  | 0, _, _ => .error .traceOutOfFuel
  | fuel + 1, acc, last =>
      if last = start then .ok (last :: acc)
      else
        match parent last with
        | none => .error .keyError
        | some p => traceWalk parent start fuel (last :: acc) p

/-- Model of `BFS.__trace_path`.  The Python guard is `if end:`, which tests the
truthiness of the vertex index itself, so an end vertex numbered `0` falls
through the guard and the method returns `None` (modelled as `none`). -/
def tracePath {n : ℕ} (parent : Fin n → Option (Fin n)) (start e : Fin n) :
    Except PyErr (Option (List (Fin n))) :=
  if e.val ≠ 0 then
    (traceWalk parent start (n + 1) [] e).map (fun l => some l)
  else .ok none

/-- The main loop of `BFS.bfs`: dequeue the head of the FIFO queue; if it is the
end vertex, back-trace the path; otherwise expand its neighbors.  When the
queue empties, a query with an end vertex returns `None` and a query without
one returns the visited list. -/
def bfsLoop {n : ℕ} (A : Mat n) (start : Fin n) (endv : Option (Fin n)) :
    ℕ → BfsSt n → Except PyErr (Option (List (Fin n)))
  | fuel, st =>
      match st.queue with
      | [] => if endv = none then .ok (some st.visited) else .ok none
      | current :: rest =>
          match fuel with
          | 0 => .error .outOfFuel
          | fuel + 1 =>
              if endv = some current then tracePath st.parent start current
              else
                bfsLoop A start endv fuel
                  (bfsExpand current (nbrList A current) { st with queue := rest })

/-- Model of `BFS.bfs`: the visited list and the queue both start holding
`start`.  Main-loop fuel `n` always suffices, because every vertex enters the
queue at most once (theorem `bfs_loop_terminates`). -/
def bfs {n : ℕ} (A : Mat n) (start : Fin n) (endv : Option (Fin n)) :
    Except PyErr (Option (List (Fin n))) :=
  bfsLoop A start endv n
    { parent := fun _ => none, visited := [start], queue := [start] }

/-! ### Model of `src/mst/graph.py` -/

/-- A priority-queue entry of `construct_mst`: a tuple
(weight, source vertex, destination vertex). -/
abbrev EdgeT (n : ℕ) : Type := ℚ × Fin n × Fin n

/-- The order in which Python compares `(weight, src, dst)` tuples:
lexicographic, weight first.  It is a total order. -/
def edgeLE {n : ℕ} (a b : EdgeT n) : Prop :=
  a.1 < b.1 ∨ (a.1 = b.1 ∧
    (a.2.1 < b.2.1 ∨ (a.2.1 = b.2.1 ∧ a.2.2 ≤ b.2.2)))

instance {n : ℕ} : DecidableRel (@edgeLE n) := fun a b => by
  unfold edgeLE; exact inferInstance

/-- Pop a least entry of the queue under the tuple order.  This is exactly what
`heapq.heappop` produces: a binary heap always pops a minimum of its multiset
of entries, and the tuple order is total. -/
def popMin {n : ℕ} : List (EdgeT n) → Option (EdgeT n × List (EdgeT n))
  | [] => none
  | x :: xs =>
      match popMin xs with
      | none => some (x, [])
      | some (m, rest) => if edgeLE x m then some (x, xs) else some (m, x :: rest)

/-- `add_edges_to_pq`: push `(A v j, v, j)` for every `j` with `A v j > 0`
(`np.argwhere(self.adj_mat[start_node] > 0)` scans indices in increasing
order). -/
def pushEdges {n : ℕ} (A : Mat n) (v : Fin n) (q : List (EdgeT n)) : List (EdgeT n) :=
  q ++ ((List.finRange n).filter (fun j => decide (0 < A v j))).map
    (fun j => (A v j, v, j))

/-- The mutable state of `construct_mst`: the visited-vertices list, the
priority queue, and the MST matrix being filled in. -/
structure MstSt (n : ℕ) : Type where
  visited : List (Fin n)
  queue : List (EdgeT n)
  M : Mat n

/-- Failure modes of the Prim model: `heapq.heappop` on an empty heap raises
`IndexError` (`emptyQueue`); `outOfFuel` is the model's fuel bound. -/
inductive MstErr : Type where
  | outOfFuel : MstErr
  | emptyQueue : MstErr
deriving DecidableEq

/-- The symmetric pair of writes `MST[u,v] = w; MST[v,u] = w`. -/
def setSym {n : ℕ} (M : Mat n) (u v : Fin n) (w : ℚ) : Mat n :=
  fun i j => if (i = u ∧ j = v) ∨ (i = v ∧ j = u) then w else M i j

/-- The main loop of `construct_mst`: while fewer than `n` vertices are
visited, pop the least edge; discard it if its destination is visited,
otherwise record it symmetrically, visit the destination and push its outgoing
edges. -/
def mstLoop {n : ℕ} (A : Mat n) : ℕ → MstSt n → Except MstErr (Mat n)
  | fuel, st =>
      if st.visited.length < n then
        match fuel with
        | 0 => .error .outOfFuel
        | fuel + 1 =>
            match popMin st.queue with
            | none => .error .emptyQueue
            | some (e, rest) =>
                if e.2.2 ∈ st.visited then mstLoop A fuel { st with queue := rest }
                else
                  mstLoop A fuel
                    { visited := st.visited ++ [e.2.2]
                      queue := pushEdges A e.2.2 rest
                      M := setSym st.M e.2.1 e.2.2 e.1 }
      else .ok st.M

/-- Model of `Graph.construct_mst`: visited starts as `[starting_node]`, the
queue starts with the starting node's outgoing edges, the MST matrix starts at
zero.  Fuel `n * n` always suffices (theorem `mstLoop_ne_outOfFuel`). -/
def construct {n : ℕ} (A : Mat n) (s : Fin n) : Except MstErr (Mat n) :=
  mstLoop A (n * n) { visited := [s], queue := pushEdges A s [], M := fun _ _ => 0 }

/-! ### Reachability -/

/-- One expansion step of a reachable set under a Boolean step relation. -/
def stepSet {n : ℕ} (adjb : Fin n → Fin n → Bool) (S : Finset (Fin n)) :
    Finset (Fin n) :=
  S ∪ Finset.univ.filter (fun v => ∃ u ∈ S, adjb u v = true)

/-- The set of vertices reachable from `s`: `n` expansion steps saturate. -/
def reachSet {n : ℕ} (adjb : Fin n → Fin n → Bool) (s : Fin n) : Finset (Fin n) :=
  (stepSet adjb)^[n] {s}

/-- The step relation of the BFS graph: `networkx` adds an edge for a nonzero
entry in either direction. -/
def bfsAdj {n : ℕ} (A : Mat n) (u v : Fin n) : Bool :=
  decide (A u v ≠ 0 ∨ A v u ≠ 0)

/-- The step relation of Prim's row scan: a strictly positive entry. -/
def primAdj {n : ℕ} (A : Mat n) (u v : Fin n) : Bool :=
  decide (0 < A u v)

/-- The input graph is connected when every vertex is reachable from `s`
through positive-weight edges. -/
def ConnectedFrom {n : ℕ} (A : Mat n) (s : Fin n) : Prop :=
  ∀ v, v ∈ reachSet (primAdj A) s

instance {n : ℕ} (A : Mat n) (s : Fin n) : Decidable (ConnectedFrom A s) := by
  unfold ConnectedFrom; exact inferInstance


/-! ### Concrete graphs used as failing inputs and witnesses -/

/-- The 2-vertex graph with a single edge 0–1 of weight 1. -/
def pathGraph2 : Mat 2 := fun i j => if i = j then 0 else 1

/-- C2: the spec says `bfs` with `start == end` returns the single-element path
`[start]`, and the docstrings of `bfs` and `__trace_path` state the same
intent; but the guard `if end:` in `__trace_path` tests the truthiness of the
vertex index, so for the vertex numbered 0 the method returns `None` instead of
`[0]`.  On the 2-vertex path graph, `bfs(0, 0)` returns `None`. -/
theorem bfs_start_eq_end_zero_returns_none :
    bfs pathGraph2 0 (some 0) = .ok none := by rfl

/-- C3: the spec says that for a start/end pair in the same connected
component the returned path runs from start to end; but because of the
`if end:` truthiness guard in `__trace_path`, any query whose end vertex is
numbered 0 returns `None`.  On the 2-vertex path graph, vertex 0 is adjacent
to vertex 1, yet `bfs(1, 0)` returns `None` instead of the path `[1, 0]`. -/
theorem bfs_path_to_vertex_zero_returns_none :
    bfs pathGraph2 1 (some 0) = .ok none ∧ 0 < pathGraph2 1 0 := by
  exact ⟨by rfl, by norm_num [pathGraph2]⟩

/-! ### Reachability lemmas -/

/-- Inductive reachability along a Boolean step relation. -/
inductive ReachRel {n : ℕ} (adjb : Fin n → Fin n → Bool) (s : Fin n) : Fin n → Prop
  | refl : ReachRel adjb s s
  | tail {u v : Fin n} : ReachRel adjb s u → adjb u v = true → ReachRel adjb s v

theorem subset_stepSet {n : ℕ} (adjb : Fin n → Fin n → Bool) (S : Finset (Fin n)) :
    S ⊆ stepSet adjb S :=
  Finset.subset_union_left

theorem stepSet_congr {n : ℕ} (adjb : Fin n → Fin n → Bool) {S T : Finset (Fin n)}
    (h : S = T) : stepSet adjb S = stepSet adjb T := by rw [h]

theorem stepSet_iterate_fix {n : ℕ} (adjb : Fin n → Fin n → Bool) {S : Finset (Fin n)}
    (h : stepSet adjb S = S) (k : ℕ) : (stepSet adjb)^[k] S = S := by
  induction k with
  | zero => rfl
  | succ k ih => rw [Function.iterate_succ_apply', ih, h]

theorem iterate_stepSet_card_grows {n : ℕ} (adjb : Fin n → Fin n → Bool) (s : Fin n) :
    ∀ k : ℕ, (stepSet adjb)^[k + 1] {s} ≠ (stepSet adjb)^[k] {s} →
      k + 2 ≤ ((stepSet adjb)^[k + 1] {s}).card := by
  intro k
  induction k with
  | zero =>
    intro hne
    have hsub : ({s} : Finset (Fin n)) ⊂ (stepSet adjb)^[1] {s} := by
      refine ⟨?_, ?_⟩
      · simpa [Function.iterate_one] using subset_stepSet adjb {s}
      · intro hle
        exact hne (Finset.Subset.antisymm
          (by simpa [Function.iterate_one] using hle)
          (by simpa [Function.iterate_one] using subset_stepSet adjb {s}))
    have := Finset.card_lt_card hsub
    simpa [Finset.card_singleton] using this
  | succ k ih =>
    intro hne
    have hprev : (stepSet adjb)^[k + 1] {s} ≠ (stepSet adjb)^[k] {s} := by
      intro heq
      apply hne
      rw [Function.iterate_succ_apply' (stepSet adjb) (k + 1), heq,
        ← Function.iterate_succ_apply' (stepSet adjb) k]
      exact heq
    have h1 : k + 2 ≤ ((stepSet adjb)^[k + 1] {s}).card := ih hprev
    have hsub : (stepSet adjb)^[k + 1] {s} ⊂ (stepSet adjb)^[k + 1 + 1] {s} := by
      refine ⟨?_, ?_⟩
      · rw [Function.iterate_succ_apply' (stepSet adjb) (k + 1)]
        exact subset_stepSet adjb _
      · intro hle
        refine hne (Finset.Subset.antisymm hle ?_)
        rw [Function.iterate_succ_apply' (stepSet adjb) (k + 1)]
        exact subset_stepSet adjb _
    have := Finset.card_lt_card hsub
    omega

theorem reachSet_saturated {n : ℕ} (adjb : Fin n → Fin n → Bool) (s : Fin n) :
    stepSet adjb (reachSet adjb s) = reachSet adjb s := by
  by_cases h : ∃ k, k < n ∧ (stepSet adjb)^[k + 1] {s} = (stepSet adjb)^[k] {s}
  · obtain ⟨k, hk, heq⟩ := h
    have hfix : stepSet adjb ((stepSet adjb)^[k] {s}) = (stepSet adjb)^[k] {s} := by
      rw [← Function.iterate_succ_apply' (stepSet adjb) k]; exact heq
    have hnk : n = n - k + k := by omega
    have hiter : reachSet adjb s = (stepSet adjb)^[k] {s} := by
      unfold reachSet
      calc (stepSet adjb)^[n] ({s} : Finset (Fin n))
          = (stepSet adjb)^[n - k + k] {s} := by rw [← hnk]
        _ = (stepSet adjb)^[n - k] ((stepSet adjb)^[k] {s}) :=
            Function.iterate_add_apply _ _ _ _
        _ = (stepSet adjb)^[k] {s} := stepSet_iterate_fix adjb hfix (n - k)
    rw [hiter]
    exact hfix
  · exfalso
    push_neg at h
    have hpos : 0 < n := s.pos
    have hgrow := iterate_stepSet_card_grows adjb s (n - 1) (h (n - 1) (by omega))
    have hle : ((stepSet adjb)^[n - 1 + 1] {s}).card ≤ n := by
      have := Finset.card_le_univ ((stepSet adjb)^[n - 1 + 1] ({s} : Finset (Fin n)))
      simpa [Finset.card_univ] using this
    omega

theorem mem_reachSet_self {n : ℕ} (adjb : Fin n → Fin n → Bool) (s : Fin n) :
    s ∈ reachSet adjb s := by
  have : ∀ k : ℕ, s ∈ (stepSet adjb)^[k] ({s} : Finset (Fin n)) := by
    intro k
    induction k with
    | zero => simp
    | succ k ih =>
      rw [Function.iterate_succ_apply']
      exact subset_stepSet adjb _ ih
  exact this n

theorem reachSet_closed {n : ℕ} {adjb : Fin n → Fin n → Bool} {s u v : Fin n}
    (hu : u ∈ reachSet adjb s) (hadj : adjb u v = true) : v ∈ reachSet adjb s := by
  rw [← reachSet_saturated adjb s]
  exact Finset.mem_union.mpr (Or.inr (Finset.mem_filter.mpr
    ⟨Finset.mem_univ v, u, hu, hadj⟩))

theorem reachSet_sound {n : ℕ} {adjb : Fin n → Fin n → Bool} {s v : Fin n}
    (hv : v ∈ reachSet adjb s) : ReachRel adjb s v := by
  suffices h : ∀ (k : ℕ) (w : Fin n), w ∈ (stepSet adjb)^[k] ({s} : Finset (Fin n)) →
      ReachRel adjb s w from h n v hv
  intro k
  induction k with
  | zero =>
    intro w hw
    rw [Function.iterate_zero_apply, Finset.mem_singleton] at hw
    exact hw ▸ ReachRel.refl
  | succ k ih =>
    intro w hw
    rw [Function.iterate_succ_apply'] at hw
    rcases Finset.mem_union.mp hw with h1 | h1
    · exact ih w h1
    · obtain ⟨-, u, hu, hadj⟩ := Finset.mem_filter.mp h1
      exact (ih u hu).tail hadj

/-! ### BFS loop lemmas -/

theorem mem_nbrList {n : ℕ} {A : Mat n} {u x : Fin n} (h : x ∈ nbrList A u) :
    bfsAdj A u x = true := by
  unfold nbrList at h
  rw [List.mem_filter] at h
  simpa [bfsAdj] using h.2

theorem bfsExpand_visited_sub {n : ℕ} (c : Fin n) (l : List (Fin n)) :
    ∀ st : BfsSt n, ∀ v ∈ st.visited, v ∈ (bfsExpand c l st).visited := by
  induction l with
  | nil => intro st v hv; exact hv
  | cons nb rest ih =>
    intro st v hv
    by_cases h : nb ∈ st.visited
    · simpa [bfsExpand, h] using ih st v hv
    · simp only [bfsExpand, h, if_false]
      exact ih _ v (by simp [hv])

theorem bfsExpand_visited_nodup {n : ℕ} (c : Fin n) (l : List (Fin n)) :
    ∀ st : BfsSt n, st.visited.Nodup → (bfsExpand c l st).visited.Nodup := by
  induction l with
  | nil => intro st h; exact h
  | cons nb rest ih =>
    intro st h
    by_cases hnb : nb ∈ st.visited
    · simpa [bfsExpand, hnb] using ih st h
    · simp only [bfsExpand, hnb, if_false]
      exact ih _ (by simp [List.nodup_append, h, hnb])

theorem bfsExpand_queue_sub {n : ℕ} (c : Fin n) (l : List (Fin n)) :
    ∀ st : BfsSt n, (∀ v ∈ st.queue, v ∈ st.visited) →
      ∀ v ∈ (bfsExpand c l st).queue, v ∈ (bfsExpand c l st).visited := by
  induction l with
  | nil => intro st h; exact h
  | cons nb rest ih =>
    intro st h
    by_cases hnb : nb ∈ st.visited
    · simpa [bfsExpand, hnb] using ih st h
    · simp only [bfsExpand, hnb, if_false]
      refine ih _ ?_
      intro v hv
      simp only [List.mem_append, List.mem_singleton] at hv ⊢
      rcases hv with hv | hv
      · exact Or.inl (h v hv)
      · exact Or.inr hv

theorem bfsExpand_length {n : ℕ} (c : Fin n) (l : List (Fin n)) :
    ∀ st : BfsSt n,
      (bfsExpand c l st).queue.length + st.visited.length
        = st.queue.length + (bfsExpand c l st).visited.length := by
  induction l with
  | nil => intro st; simp [bfsExpand]
  | cons nb rest ih =>
    intro st
    by_cases hnb : nb ∈ st.visited
    · simpa [bfsExpand, hnb] using ih st
    · simp only [bfsExpand, hnb, if_false]
      have := ih { parent := fun x => if x = nb then some c else st.parent x,
                   visited := st.visited ++ [nb], queue := st.queue ++ [nb] }
      simp only [List.length_append, List.length_singleton] at this ⊢
      omega

theorem bfsExpand_visited_len_le {n : ℕ} (c : Fin n) (l : List (Fin n)) :
    ∀ st : BfsSt n, st.visited.length ≤ (bfsExpand c l st).visited.length := by
  induction l with
  | nil => intro st; exact Nat.le_refl _
  | cons nb rest ih =>
    intro st
    by_cases hnb : nb ∈ st.visited
    · simpa [bfsExpand, hnb] using ih st
    · simp only [bfsExpand, hnb, if_false]
      refine le_trans ?_ (ih _)
      simp

theorem bfsExpand_visited_cases {n : ℕ} (c : Fin n) (l : List (Fin n)) :
    ∀ st : BfsSt n, ∀ v ∈ (bfsExpand c l st).visited,
      v ∈ st.visited ∨ v ∈ l := by
  induction l with
  | nil => intro st v hv; exact Or.inl hv
  | cons nb rest ih =>
    intro st v hv
    by_cases hnb : nb ∈ st.visited
    · rcases ih st v (by simpa [bfsExpand, hnb] using hv) with h | h
      · exact Or.inl h
      · exact Or.inr (List.mem_cons_of_mem _ h)
    · simp only [bfsExpand, hnb, if_false] at hv
      rcases ih _ v hv with h | h
      · rcases List.mem_append.mp h with h1 | h1
        · exact Or.inl h1
        · exact Or.inr (by simp [List.mem_singleton.mp h1])
      · exact Or.inr (List.mem_cons_of_mem _ h)

theorem traceWalk_ne_outOfFuel {n : ℕ} (parent : Fin n → Option (Fin n))
    (start : Fin n) :
    ∀ (fuel : ℕ) (acc : List (Fin n)) (last : Fin n),
      traceWalk parent start fuel acc last ≠ .error .outOfFuel := by
  intro fuel
  induction fuel with
  | zero => intro acc last h; exact PyErr.noConfusion (Except.error.inj h)
  | succ fuel ih =>
    intro acc last
    unfold traceWalk
    by_cases h : last = start
    · simp [h]
    · simp only [h, if_false]
      cases parent last with
      | none => intro hc; exact PyErr.noConfusion (Except.error.inj hc)
      | some p => exact ih _ p

theorem tracePath_ne_outOfFuel {n : ℕ} (parent : Fin n → Option (Fin n))
    (start e : Fin n) : tracePath parent start e ≠ .error .outOfFuel := by
  unfold tracePath
  by_cases h : e.val ≠ 0
  · rw [if_pos h]
    cases hw : traceWalk parent start (n + 1) [] e with
    | ok l => intro hc; exact Except.noConfusion hc
    | error err =>
      have hne := traceWalk_ne_outOfFuel parent start (n + 1) [] e
      rw [hw] at hne
      intro hc
      simp only [Except.map, Except.error.injEq] at hc
      exact hne (by rw [hc])
  · rw [if_neg h]
    intro hc
    exact Except.noConfusion hc

theorem bfsLoop_nil {n : ℕ} (A : Mat n) (start : Fin n) (endv : Option (Fin n))
    (fuel : ℕ) (st : BfsSt n) (hq : st.queue = []) :
    bfsLoop A start endv fuel st
      = if endv = none then .ok (some st.visited) else .ok none := by
  obtain ⟨p, vis, q⟩ := st
  simp only at hq
  subst hq
  cases fuel with
  | zero => rfl
  | succ fuel => rfl

theorem bfsLoop_cons {n : ℕ} (A : Mat n) (start : Fin n) (endv : Option (Fin n))
    (fuel : ℕ) (st : BfsSt n) (current : Fin n) (rest : List (Fin n))
    (hq : st.queue = current :: rest) :
    bfsLoop A start endv (fuel + 1) st
      = if endv = some current then tracePath st.parent start current
        else bfsLoop A start endv fuel
          (bfsExpand current (nbrList A current) { st with queue := rest }) := by
  obtain ⟨p, vis, q⟩ := st
  simp only at hq
  subst hq
  rfl

/-- The BFS loop with fuel `fuel` never reports fuel exhaustion as long as
`fuel` is at least the measure `|queue| + (n - |visited|)`: each iteration pops
one vertex and enqueues only fresh vertices, which also enter the visited
list, so the measure strictly decreases. -/
theorem bfsLoop_ne_outOfFuel {n : ℕ} (A : Mat n) (start : Fin n)
    (endv : Option (Fin n)) :
    ∀ (fuel : ℕ) (st : BfsSt n), st.visited.Nodup →
      (∀ v ∈ st.queue, v ∈ st.visited) →
      st.queue.length + (n - st.visited.length) ≤ fuel →
      bfsLoop A start endv fuel st ≠ .error .outOfFuel := by
  intro fuel
  induction fuel with
  | zero =>
    intro st hnd hqv hm
    have hq : st.queue = [] := by
      have : st.queue.length = 0 := by omega
      exact List.length_eq_zero.mp this
    rw [bfsLoop_nil A start endv 0 st hq]
    split
    · intro hc; exact Except.noConfusion hc
    · intro hc; exact Except.noConfusion hc
  | succ fuel ih =>
    intro st hnd hqv hm
    cases hq : st.queue with
    | nil =>
      rw [bfsLoop_nil A start endv _ st hq]
      split
      · intro hc; exact Except.noConfusion hc
      · intro hc; exact Except.noConfusion hc
    | cons current rest =>
      rw [bfsLoop_cons A start endv fuel st current rest hq]
      by_cases hce : endv = some current
      · rw [if_pos hce]
        exact tracePath_ne_outOfFuel _ _ _
      · rw [if_neg hce]
        have h5 : st.queue.length = rest.length + 1 := by rw [hq]; rfl
        have key : ∀ st' : BfsSt n, st'.visited.Nodup →
            st'.queue.length + st.visited.length = rest.length + st'.visited.length →
            st.visited.length ≤ st'.visited.length →
            st'.queue.length + (n - st'.visited.length) ≤ fuel := by
          intro st' hnd' hlen hle
          have h4 : st'.visited.length ≤ n := by simpa using hnd'.length_le_card
          omega
        have h3 : (bfsExpand current (nbrList A current)
            { st with queue := rest }).visited.Nodup :=
          bfsExpand_visited_nodup _ _ _ hnd
        apply ih
        · exact h3
        · apply bfsExpand_queue_sub
          intro v hv
          exact hqv v (by rw [hq]; exact List.mem_cons_of_mem _ hv)
        · exact key _ h3
            (bfsExpand_length current (nbrList A current) { st with queue := rest })
            (bfsExpand_visited_len_le current (nbrList A current)
              { st with queue := rest })

/-- C10: for every adjacency matrix and every start vertex, the `bfs` main
loop terminates: only unvisited vertices are enqueued and they are marked
visited as they are enqueued, so every vertex enters the FIFO queue at most
once and the loop performs at most `n` dequeues — running `bfs` with main-loop
fuel `n` never exhausts it. -/
theorem bfs_loop_terminates {n : ℕ} (A : Mat n) (start : Fin n)
    (endv : Option (Fin n)) : bfs A start endv ≠ .error .outOfFuel := by
  unfold bfs
  apply bfsLoop_ne_outOfFuel
  · exact List.nodup_singleton start
  · intro v hv; exact hv
  · have : 0 < n := start.pos
    simp only [List.length_singleton]
    omega

/-- If the requested end vertex is unreachable, the BFS loop runs the queue to
exhaustion without ever matching it, and returns the Python value `None`. -/
theorem bfsLoop_unreachable {n : ℕ} (A : Mat n) (start e : Fin n)
    (he : e ∉ reachSet (bfsAdj A) start) :
    ∀ (fuel : ℕ) (st : BfsSt n), st.visited.Nodup →
      (∀ v ∈ st.queue, v ∈ st.visited) →
      (∀ v ∈ st.visited, v ∈ reachSet (bfsAdj A) start) →
      st.queue.length + (n - st.visited.length) ≤ fuel →
      bfsLoop A start (some e) fuel st = .ok none := by
  intro fuel
  induction fuel with
  | zero =>
    intro st hnd hqv hvr hm
    have hq : st.queue = [] := List.length_eq_zero.mp (by omega)
    rw [bfsLoop_nil A start (some e) 0 st hq]
    simp
  | succ fuel ih =>
    intro st hnd hqv hvr hm
    cases hq : st.queue with
    | nil =>
      rw [bfsLoop_nil A start (some e) _ st hq]
      simp
    | cons current rest =>
      rw [bfsLoop_cons A start (some e) fuel st current rest hq]
      have hcur : current ∈ st.visited :=
        hqv current (by rw [hq]; exact List.mem_cons_self _ _)
      have hne : ¬(some e = some current) := by
        intro hc
        exact he (by rw [show e = current from Option.some.inj hc]
                     exact hvr current hcur)
      rw [if_neg hne]
      have h5 : st.queue.length = rest.length + 1 := by rw [hq]; rfl
      have key : ∀ st' : BfsSt n, st'.visited.Nodup →
          st'.queue.length + st.visited.length = rest.length + st'.visited.length →
          st.visited.length ≤ st'.visited.length →
          st'.queue.length + (n - st'.visited.length) ≤ fuel := by
        intro st' hnd' hlen hle
        have h4 : st'.visited.length ≤ n := by simpa using hnd'.length_le_card
        omega
      have h3 : (bfsExpand current (nbrList A current)
          { st with queue := rest }).visited.Nodup :=
        bfsExpand_visited_nodup _ _ _ hnd
      apply ih
      · exact h3
      · apply bfsExpand_queue_sub
        intro v hv
        exact hqv v (by rw [hq]; exact List.mem_cons_of_mem _ hv)
      · intro v hv
        rcases bfsExpand_visited_cases _ _ _ v hv with h | h
        · exact hvr v h
        · exact reachSet_closed (hvr current hcur) (mem_nbrList h)
      · exact key _ h3
          (bfsExpand_length current (nbrList A current) { st with queue := rest })
          (bfsExpand_visited_len_le current (nbrList A current)
            { st with queue := rest })

/-- C9: for every start/end pair where the end vertex lies in a different
connected component than the start (it is not reachable through nonzero
entries), `bfs` returns the "no path" value `None` — no exception and no
truncated list. -/
theorem bfs_no_path_returns_none {n : ℕ} (A : Mat n) (start e : Fin n)
    (he : e ∉ reachSet (bfsAdj A) start) :
    bfs A start (some e) = .ok none := by
  unfold bfs
  apply bfsLoop_unreachable A start e he
  · exact List.nodup_singleton start
  · intro v hv; exact hv
  · intro v hv
    rw [List.mem_singleton] at hv
    rw [hv]
    exact mem_reachSet_self _ _
  · simp only [List.length_singleton]
    have : 0 < n := start.pos
    omega

/-- Witness for C9: in the 2-vertex graph with no edges, vertex 1 is not
reachable from vertex 0 and the path query returns `None`. -/
theorem bfs_no_path_returns_none_witness :
    (1 : Fin 2) ∉ reachSet (bfsAdj (fun _ _ => 0 : Mat 2)) 0 ∧
      bfs (fun _ _ => 0 : Mat 2) 0 (some 1) = .ok none :=
  ⟨by decide, bfs_no_path_returns_none _ _ _ (by decide)⟩

/-! ### Priority-queue lemmas -/

theorem edgeLE_refl {n : ℕ} (a : EdgeT n) : edgeLE a a :=
  Or.inr ⟨rfl, Or.inr ⟨rfl, le_refl _⟩⟩

theorem edgeLE_total {n : ℕ} (a b : EdgeT n) : edgeLE a b ∨ edgeLE b a := by
  unfold edgeLE
  rcases lt_trichotomy a.1 b.1 with h | h | h
  · exact Or.inl (Or.inl h)
  · rcases lt_trichotomy a.2.1 b.2.1 with h2 | h2 | h2
    · exact Or.inl (Or.inr ⟨h, Or.inl h2⟩)
    · rcases le_total a.2.2 b.2.2 with h3 | h3
      · exact Or.inl (Or.inr ⟨h, Or.inr ⟨h2, h3⟩⟩)
      · exact Or.inr (Or.inr ⟨h.symm, Or.inr ⟨h2.symm, h3⟩⟩)
    · exact Or.inr (Or.inr ⟨h.symm, Or.inl h2⟩)
  · exact Or.inr (Or.inl h)

theorem edgeLE_trans {n : ℕ} {a b c : EdgeT n}
    (h1 : edgeLE a b) (h2 : edgeLE b c) : edgeLE a c := by
  unfold edgeLE at h1 h2 ⊢
  rcases h1 with h1 | ⟨e1, h1⟩
  · rcases h2 with h2 | ⟨e2, h2⟩
    · exact Or.inl (lt_trans h1 h2)
    · exact Or.inl (by rw [← e2]; exact h1)
  · rcases h2 with h2 | ⟨e2, h2⟩
    · exact Or.inl (by rw [e1]; exact h2)
    · refine Or.inr ⟨e1.trans e2, ?_⟩
      rcases h1 with h1 | ⟨f1, h1⟩
      · rcases h2 with h2 | ⟨f2, h2⟩
        · exact Or.inl (lt_trans h1 h2)
        · exact Or.inl (by rw [← f2]; exact h1)
      · rcases h2 with h2 | ⟨f2, h2⟩
        · exact Or.inl (by rw [f1]; exact h2)
        · exact Or.inr ⟨f1.trans f2, le_trans h1 h2⟩

/-- The first component of the tuple order is the weight: a lesser tuple has a
weight that is less than or equal. -/
theorem edgeLE_weight_le {n : ℕ} {a b : EdgeT n} (h : edgeLE a b) : a.1 ≤ b.1 := by
  rcases h with h | ⟨h, -⟩
  · exact le_of_lt h
  · exact le_of_eq h

theorem popMin_eq_none {n : ℕ} {q : List (EdgeT n)} (h : popMin q = none) :
    q = [] := by
  cases q with
  | nil => rfl
  | cons x xs =>
    exfalso
    unfold popMin at h
    cases hp : popMin xs with
    | none =>
      rw [hp] at h
      exact Option.noConfusion h
    | some pr =>
      obtain ⟨m, rest⟩ := pr
      rw [hp] at h
      have h' : (if edgeLE x m then some (x, xs) else some (m, x :: rest)) = none := h
      by_cases hle : edgeLE x m
      · rw [if_pos hle] at h'; exact Option.noConfusion h'
      · rw [if_neg hle] at h'; exact Option.noConfusion h'

theorem popMin_spec {n : ℕ} :
    ∀ (q : List (EdgeT n)) (e : EdgeT n) (rest : List (EdgeT n)),
      popMin q = some (e, rest) →
      e ∈ q ∧ q.length = rest.length + 1 ∧
        (∀ f ∈ q, f = e ∨ f ∈ rest) ∧ (∀ f ∈ rest, f ∈ q) ∧
        (∀ f ∈ q, edgeLE e f) := by
  intro q
  induction q with
  | nil => intro e rest h; exact Option.noConfusion h
  | cons x xs ih =>
    intro e rest h
    unfold popMin at h
    cases hp : popMin xs with
    | none =>
      rw [hp] at h
      have h' : (some (x, ([] : List (EdgeT n)))
          : Option (EdgeT n × List (EdgeT n))) = some (e, rest) := h
      have h1 : e = x := (congrArg Prod.fst (Option.some.inj h')).symm
      have h2 : rest = [] := (congrArg Prod.snd (Option.some.inj h')).symm
      subst h1; subst h2
      have hxs : xs = [] := popMin_eq_none hp
      subst hxs
      refine ⟨List.mem_singleton_self _, rfl, ?_, ?_, ?_⟩
      · intro f hf
        exact Or.inl (List.mem_singleton.mp hf)
      · intro f hf
        exact absurd hf (List.not_mem_nil f)
      · intro f hf
        rw [List.mem_singleton.mp hf]
        exact edgeLE_refl _
    | some pr =>
      obtain ⟨m, rest'⟩ := pr
      rw [hp] at h
      have h' : (if edgeLE x m then some (x, xs) else some (m, x :: rest'))
          = some (e, rest) := h
      obtain ⟨hm_mem, hm_len, hm_cases, hm_sub, hm_min⟩ := ih m rest' hp
      by_cases hle : edgeLE x m
      · rw [if_pos hle] at h'
        have h1 : e = x := (congrArg Prod.fst (Option.some.inj h')).symm
        have h2 : rest = xs := (congrArg Prod.snd (Option.some.inj h')).symm
        subst h1; subst h2
        refine ⟨List.mem_cons_self _ _, rfl, ?_, ?_, ?_⟩
        · intro f hf
          rcases List.mem_cons.mp hf with h | h
          · exact Or.inl h
          · exact Or.inr h
        · intro f hf
          exact List.mem_cons_of_mem _ hf
        · intro f hf
          rcases List.mem_cons.mp hf with h | h
          · rw [h]; exact edgeLE_refl _
          · exact edgeLE_trans hle (hm_min f h)
      · rw [if_neg hle] at h'
        have h1 : e = m := (congrArg Prod.fst (Option.some.inj h')).symm
        have h2 : rest = x :: rest' := (congrArg Prod.snd (Option.some.inj h')).symm
        subst h1; subst h2
        have hmx : edgeLE e x := (edgeLE_total x e).resolve_left hle
        refine ⟨List.mem_cons_of_mem _ hm_mem, by simp [hm_len], ?_, ?_, ?_⟩
        · intro f hf
          rcases List.mem_cons.mp hf with h | h
          · exact Or.inr (by rw [h]; exact List.mem_cons_self _ _)
          · rcases hm_cases f h with h2 | h2
            · exact Or.inl h2
            · exact Or.inr (List.mem_cons_of_mem _ h2)
        · intro f hf
          rcases List.mem_cons.mp hf with h | h
          · rw [h]; exact List.mem_cons_self _ _
          · exact List.mem_cons_of_mem _ (hm_sub f h)
        · intro f hf
          rcases List.mem_cons.mp hf with h | h
          · rw [h]; exact hmx
          · exact hm_min f h

/-! ### Prim loop unfolding lemmas -/

theorem mstLoop_done {n : ℕ} (A : Mat n) (fuel : ℕ) (st : MstSt n)
    (h : ¬st.visited.length < n) : mstLoop A fuel st = .ok st.M := by
  cases fuel with
  | zero => unfold mstLoop; rw [if_neg h]
  | succ fuel => unfold mstLoop; rw [if_neg h]

theorem mstLoop_zero {n : ℕ} (A : Mat n) (st : MstSt n)
    (h : st.visited.length < n) : mstLoop A 0 st = .error .outOfFuel := by
  unfold mstLoop; rw [if_pos h]

theorem mstLoop_succ_empty {n : ℕ} (A : Mat n) (fuel : ℕ) (st : MstSt n)
    (h : st.visited.length < n) (hp : popMin st.queue = none) :
    mstLoop A (fuel + 1) st = .error .emptyQueue := by
  unfold mstLoop; rw [if_pos h, hp]

theorem mstLoop_succ_skip {n : ℕ} (A : Mat n) (fuel : ℕ) (st : MstSt n)
    (e : EdgeT n) (rest : List (EdgeT n))
    (h : st.visited.length < n) (hp : popMin st.queue = some (e, rest))
    (hv : e.2.2 ∈ st.visited) :
    mstLoop A (fuel + 1) st = mstLoop A fuel { st with queue := rest } := by
  obtain ⟨w, u, v⟩ := e
  conv_lhs => unfold mstLoop
  rw [if_pos h, hp]
  exact if_pos hv

theorem mstLoop_succ_add {n : ℕ} (A : Mat n) (fuel : ℕ) (st : MstSt n)
    (e : EdgeT n) (rest : List (EdgeT n))
    (h : st.visited.length < n) (hp : popMin st.queue = some (e, rest))
    (hv : e.2.2 ∉ st.visited) :
    mstLoop A (fuel + 1) st = mstLoop A fuel
      { visited := st.visited ++ [e.2.2]
        queue := pushEdges A e.2.2 rest
        M := setSym st.M e.2.1 e.2.2 e.1 } := by
  obtain ⟨w, u, v⟩ := e
  conv_lhs => unfold mstLoop
  rw [if_pos h, hp]
  exact if_neg hv

/-! ### pushEdges lemmas -/

theorem mem_pushEdges {n : ℕ} (A : Mat n) (v : Fin n) (q : List (EdgeT n))
    (f : EdgeT n) :
    f ∈ pushEdges A v q ↔ f ∈ q ∨ ∃ j : Fin n, 0 < A v j ∧ f = (A v j, v, j) := by
  unfold pushEdges
  rw [List.mem_append]
  constructor
  · rintro (h | h)
    · exact Or.inl h
    · rcases List.mem_map.mp h with ⟨j, hj, rfl⟩
      rw [List.mem_filter] at hj
      exact Or.inr ⟨j, by simpa using hj.2, rfl⟩
  · rintro (h | ⟨j, hj, rfl⟩)
    · exact Or.inl h
    · refine Or.inr (List.mem_map.mpr ⟨j, ?_, rfl⟩)
      rw [List.mem_filter]
      exact ⟨List.mem_finRange j, by simpa using hj⟩

theorem pushEdges_length {n : ℕ} (A : Mat n) (v : Fin n) (q : List (EdgeT n)) :
    (pushEdges A v q).length ≤ q.length + n := by
  unfold pushEdges
  rw [List.length_append, List.length_map]
  have h1 : ((List.finRange n).filter (fun j => decide (0 < A v j))).length
      ≤ (List.finRange n).length := List.length_filter_le _ _
  rw [List.length_finRange] at h1
  omega

/-! ### Prim loop: termination and the disconnected case -/

/-- With fuel at least `|queue| + (n - |visited|) * n`, the Prim loop never
reports fuel exhaustion: every iteration pops one queue entry, and a pop that
grows the tree pushes at most `n` new entries while growing the visited
list. -/
theorem mstLoop_ne_outOfFuel {n : ℕ} (A : Mat n) :
    ∀ (fuel : ℕ) (st : MstSt n),
      st.queue.length + (n - st.visited.length) * n ≤ fuel →
      mstLoop A fuel st ≠ .error .outOfFuel := by
  intro fuel
  induction fuel with
  | zero =>
    intro st hm
    by_cases h : st.visited.length < n
    · exfalso
      have h1 : n ≤ (n - st.visited.length) * n :=
        Nat.le_mul_of_pos_left n (by omega)
      omega
    · rw [mstLoop_done A 0 st h]
      intro hc; exact Except.noConfusion hc
  | succ fuel ih =>
    intro st hm
    by_cases h : st.visited.length < n
    · cases hp : popMin st.queue with
      | none =>
        rw [mstLoop_succ_empty A fuel st h hp]
        intro hc
        exact MstErr.noConfusion (Except.error.inj hc)
      | some pr =>
        obtain ⟨e, rest⟩ := pr
        obtain ⟨-, hlen, -, -, -⟩ := popMin_spec st.queue e rest hp
        by_cases hv : e.2.2 ∈ st.visited
        · rw [mstLoop_succ_skip A fuel st e rest h hp hv]
          apply ih
          simp only
          omega
        · rw [mstLoop_succ_add A fuel st e rest h hp hv]
          apply ih
          have hpl := pushEdges_length A e.2.2 rest
          have hmul : (n - st.visited.length) * n
              = (n - (st.visited.length + 1)) * n + n := by
            have h2 : n - st.visited.length = (n - (st.visited.length + 1)) + 1 := by
              omega
            rw [h2, add_mul, one_mul]
          simp only [List.length_append, List.length_singleton]
          omega
    · rw [mstLoop_done A (fuel + 1) st h]
      intro hc; exact Except.noConfusion hc

theorem length_lt_of_nodup_sub {n : ℕ} {l : List (Fin n)} {S : Finset (Fin n)}
    (hnd : l.Nodup) (hsub : ∀ v ∈ l, v ∈ S) {z : Fin n} (hz : z ∉ S) :
    l.length < n := by
  have h1 : l.toFinset.card = l.length := List.toFinset_card_of_nodup hnd
  have h2 : l.toFinset ⊆ S := by
    intro v hv; exact hsub v (List.mem_toFinset.mp hv)
  have h3 : S ⊆ Finset.univ.erase z := by
    intro v hv
    exact Finset.mem_erase.mpr ⟨fun hc => hz (hc ▸ hv), Finset.mem_univ v⟩
  have h4 := Finset.card_le_card (h2.trans h3)
  rw [Finset.card_erase_of_mem (Finset.mem_univ z), Finset.card_univ,
    Fintype.card_fin] at h4
  have hn : 0 < n := z.pos
  omega

/-- If some vertex is unreachable from the start through positive entries, the
Prim loop can never succeed: every visited vertex stays inside the reachable
set, so the visited list never reaches length `n`. -/
theorem mstLoop_not_ok {n : ℕ} (A : Mat n) (s z : Fin n)
    (hz : z ∉ reachSet (primAdj A) s) :
    ∀ (fuel : ℕ) (st : MstSt n), st.visited.Nodup →
      (∀ v ∈ st.visited, v ∈ reachSet (primAdj A) s) →
      (∀ f ∈ st.queue, f.2.1 ∈ st.visited ∧ 0 < A f.2.1 f.2.2) →
      ∀ M, mstLoop A fuel st ≠ .ok M := by
  intro fuel
  induction fuel with
  | zero =>
    intro st hnd hvr hq M
    have hlt : st.visited.length < n := length_lt_of_nodup_sub hnd hvr hz
    rw [mstLoop_zero A st hlt]
    intro hc; exact Except.noConfusion hc
  | succ fuel ih =>
    intro st hnd hvr hq M
    have hlt : st.visited.length < n := length_lt_of_nodup_sub hnd hvr hz
    cases hp : popMin st.queue with
    | none =>
      rw [mstLoop_succ_empty A fuel st hlt hp]
      intro hc; exact Except.noConfusion hc
    | some pr =>
      obtain ⟨e, rest⟩ := pr
      obtain ⟨hmem, -, -, hsub, -⟩ := popMin_spec st.queue e rest hp
      by_cases hv : e.2.2 ∈ st.visited
      · rw [mstLoop_succ_skip A fuel st e rest hlt hp hv]
        exact ih { st with queue := rest } hnd hvr (fun f hf => hq f (hsub f hf)) M
      · rw [mstLoop_succ_add A fuel st e rest hlt hp hv]
        have he := hq e hmem
        have hdst : e.2.2 ∈ reachSet (primAdj A) s :=
          reachSet_closed (hvr _ he.1) (by unfold primAdj; exact decide_eq_true he.2)
        apply ih
        · simp [List.nodup_append, hnd, hv]
        · intro v hv2
          rcases List.mem_append.mp hv2 with h | h
          · exact hvr v h
          · rw [List.mem_singleton.mp h]; exact hdst
        · intro f hf
          rcases (mem_pushEdges A e.2.2 rest f).mp hf with h | ⟨j, hj, hf2⟩
          · have hold := hq f (hsub f h)
            exact ⟨List.mem_append_left _ hold.1, hold.2⟩
          · rw [hf2]
            exact ⟨List.mem_append_right _ (List.mem_singleton_self _), hj⟩

/-- The 3-vertex graph whose only edge joins vertices 0 and 1; vertex 2 is
isolated, so the graph is disconnected. -/
def disc3 : Mat 3 := fun i j => if (i = 0 ∧ j = 1) ∨ (i = 1 ∧ j = 0) then 1 else 0

/-- C4: on a disconnected input graph `construct_mst` fails outright: the
model is a total function whose value is the empty-queue error (the
`IndexError` that `heapq.heappop` raises on an exhausted queue) and never the
fuel bound, so the loop does not run forever; and since `self.mst` is only
assigned after the loop completes, no result matrix is exposed. -/
theorem construct_mst_disconnected_fails {n : ℕ} (A : Mat n) (s : Fin n)
    (hdis : ¬ConnectedFrom A s) :
    construct A s = .error .emptyQueue := by
  obtain ⟨z, hz⟩ := not_forall.mp hdis
  cases hres : construct A s with
  | ok M =>
    exfalso
    unfold construct at hres
    exact mstLoop_not_ok A s z hz (n * n) _ (List.nodup_singleton s)
      (fun v hv => by rw [List.mem_singleton.mp hv]; exact mem_reachSet_self _ _)
      (fun f hf => by
        rcases (mem_pushEdges A s [] f).mp hf with h | ⟨j, hj, hf2⟩
        · exact absurd h (List.not_mem_nil f)
        · rw [hf2]; exact ⟨List.mem_singleton_self _, hj⟩) M hres
  | error err =>
    cases err with
    | outOfFuel =>
      exfalso
      unfold construct at hres
      refine mstLoop_ne_outOfFuel A (n * n) _ ?_ hres
      have hpl := pushEdges_length A s ([] : List (EdgeT n))
      have hn : 0 < n := s.pos
      have hmul : (n - 1) * n + n = n * n := by
        have h2 : n - 1 + 1 = n := by omega
        calc (n - 1) * n + n = (n - 1 + 1) * n := by rw [add_mul, one_mul]
          _ = n * n := by rw [h2]
      simp only [List.length_singleton]
      rw [List.length_nil] at hpl
      omega
    | emptyQueue => rfl

/-- Witness for C4: the 3-vertex graph with the single edge 0–1 is
disconnected, and constructing from vertex 0 hits the empty-queue error. -/
theorem construct_mst_disconnected_fails_witness :
    ¬ConnectedFrom disc3 0 ∧ construct disc3 0 = .error .emptyQueue :=
  ⟨by decide, construct_mst_disconnected_fails _ _ (by decide)⟩


/-- The number of nonzero entries in the strict lower triangle of a matrix. -/
def lowCount {n : ℕ} (M : Mat n) : ℕ :=
  ((Finset.univ : Finset (Fin n × Fin n)).filter
    (fun p => p.2 < p.1 ∧ M p.1 p.2 ≠ 0)).card

/-- `setSym` writes the same two entries whichever way the pair is given. -/
theorem setSym_comm {n : ℕ} (M : Mat n) (u v : Fin n) (w : ℚ) :
    setSym M u v w = setSym M v u w := by
  funext i j
  unfold setSym
  exact if_congr (by tauto) rfl rfl

/-- Writing a fresh pair of entries at `(u,v)` with `v < u` grows the strict
lower-triangle count by exactly one. -/
theorem lowCount_setSym_lt {n : ℕ} (M : Mat n) (u v : Fin n) (w : ℚ)
    (hlt : v < u) (hw : w ≠ 0) (h0 : M u v = 0) :
    lowCount (setSym M u v w) = lowCount M + 1 := by
  unfold lowCount
  have key : ((Finset.univ : Finset (Fin n × Fin n)).filter
        (fun p => p.2 < p.1 ∧ setSym M u v w p.1 p.2 ≠ 0))
      = insert (u, v)
          ((Finset.univ : Finset (Fin n × Fin n)).filter
            (fun p => p.2 < p.1 ∧ M p.1 p.2 ≠ 0)) := by
    ext p
    obtain ⟨a, b⟩ := p
    simp only [Finset.mem_filter, Finset.mem_univ, true_and, Finset.mem_insert,
      Prod.mk.injEq]
    constructor
    · rintro ⟨hab, hnz⟩
      by_cases hc : (a = u ∧ b = v) ∨ (a = v ∧ b = u)
      · rcases hc with ⟨h1, h2⟩ | ⟨h1, h2⟩
        · exact Or.inl ⟨h1, h2⟩
        · exfalso
          rw [h1, h2] at hab
          exact absurd (lt_trans hab hlt) (lt_irrefl _)
      · refine Or.inr ⟨hab, ?_⟩
        have hval : setSym M u v w a b = M a b := by
          unfold setSym; rw [if_neg hc]
        rw [← hval]
        exact hnz
    · rintro (⟨h1, h2⟩ | ⟨hab, hnz⟩)
      · refine ⟨by rw [h1, h2]; exact hlt, ?_⟩
        have hval : setSym M u v w a b = w := by
          unfold setSym
          rw [if_pos (Or.inl ⟨h1, h2⟩)]
        rw [hval]
        exact hw
      · refine ⟨hab, ?_⟩
        by_cases hc : (a = u ∧ b = v) ∨ (a = v ∧ b = u)
        · have hval : setSym M u v w a b = w := by
            unfold setSym; rw [if_pos hc]
          rw [hval]
          exact hw
        · have hval : setSym M u v w a b = M a b := by
            unfold setSym; rw [if_neg hc]
          rw [hval]
          exact hnz
  rw [key, Finset.card_insert_of_not_mem]
  intro hmem
  rw [Finset.mem_filter] at hmem
  exact hmem.2.2 h0

/-- Writing a fresh symmetric pair of nonzero entries grows the strict
lower-triangle count by exactly one. -/
theorem lowCount_setSym {n : ℕ} (M : Mat n) (u v : Fin n) (w : ℚ)
    (hne : u ≠ v) (hw : w ≠ 0) (h0 : M u v = 0) (h0' : M v u = 0) :
    lowCount (setSym M u v w) = lowCount M + 1 := by
  rcases lt_or_gt_of_ne hne with h | h
  · rw [setSym_comm]
    exact lowCount_setSym_lt M v u w h hw h0'
  · exact lowCount_setSym_lt M u v w h hw h0

/-! ### The Prim loop invariant -/

/-- Invariant of the `construct_mst` loop: the visited list has no duplicates
and holds the start vertex; every queue entry is a positive-weight edge out of
a visited vertex carrying its true weight; every positive-weight edge from a
visited to an unvisited vertex is present in the queue; and the matrix under
construction is symmetric, zero on the diagonal, supported on visited
vertices, and copies positive entries of the input. -/
structure PrimInv {n : ℕ} (A : Mat n) (s : Fin n) (st : MstSt n) : Prop where
  nodup : st.visited.Nodup
  start_mem : s ∈ st.visited
  queue_src : ∀ f ∈ st.queue,
    f.2.1 ∈ st.visited ∧ 0 < A f.2.1 f.2.2 ∧ f.1 = A f.2.1 f.2.2
  crossing : ∀ u ∈ st.visited, ∀ v : Fin n, 0 < A u v → v ∉ st.visited →
    (A u v, u, v) ∈ st.queue
  Msymm : ∀ i j, st.M i j = st.M j i
  Mdiag : ∀ i, st.M i i = 0
  Msupp : ∀ i j, st.M i j ≠ 0 → i ∈ st.visited ∧ j ∈ st.visited
  Mval : ∀ i j, st.M i j ≠ 0 → st.M i j = A i j ∧ 0 < A i j
  count : lowCount st.M + 1 = st.visited.length

/-- The initial state of `construct_mst` satisfies the invariant. -/
theorem primInv_init {n : ℕ} (A : Mat n) (s : Fin n) :
    PrimInv A s { visited := [s], queue := pushEdges A s [], M := fun _ _ => 0 } := by
  refine ⟨List.nodup_singleton s, List.mem_singleton_self s, ?_, ?_, ?_, ?_, ?_, ?_, ?_⟩
  · intro f hf
    rcases (mem_pushEdges A s [] f).mp hf with h | ⟨j, hj, hf2⟩
    · exact absurd h (List.not_mem_nil f)
    · rw [hf2]; exact ⟨List.mem_singleton_self _, hj, rfl⟩
  · intro u hu v hpos hv
    rw [List.mem_singleton.mp hu]
    refine (mem_pushEdges A s [] _).mpr (Or.inr ⟨v, ?_, rfl⟩)
    rw [← List.mem_singleton.mp hu]
    exact hpos
  · intro i j; rfl
  · intro i; rfl
  · intro i j h; exact absurd rfl h
  · intro i j h; exact absurd rfl h
  · show lowCount (fun _ _ => (0 : ℚ)) + 1 = 1
    unfold lowCount
    rw [Finset.filter_false_of_mem (by intro p hp; simp), Finset.card_empty]

/-- Discarding an already-visited destination preserves the invariant. -/
theorem primInv_skip {n : ℕ} {A : Mat n} {s : Fin n} {st : MstSt n}
    {e : EdgeT n} {rest : List (EdgeT n)}
    (hp : popMin st.queue = some (e, rest)) (hv : e.2.2 ∈ st.visited)
    (h : PrimInv A s st) : PrimInv A s { st with queue := rest } := by
  obtain ⟨-, -, hcases, hsub, -⟩ := popMin_spec st.queue e rest hp
  refine ⟨h.nodup, h.start_mem, ?_, ?_, h.Msymm, h.Mdiag, h.Msupp, h.Mval, h.count⟩
  · intro f hf
    exact h.queue_src f (hsub f hf)
  · intro u hu v hpos hvv
    rcases hcases _ (h.crossing u hu v hpos hvv) with hc | hc
    · exfalso
      apply hvv
      have : e.2.2 = v := by rw [← hc]
      rw [← this]
      exact hv
    · exact hc

/-- Accepting a fresh destination preserves the invariant (the input matrix
must be symmetric for the mirrored entry to copy the input). -/
theorem primInv_add {n : ℕ} {A : Mat n} {s : Fin n}
    (hsym : ∀ i j, A i j = A j i) {st : MstSt n}
    {e : EdgeT n} {rest : List (EdgeT n)}
    (hp : popMin st.queue = some (e, rest)) (hv : e.2.2 ∉ st.visited)
    (h : PrimInv A s st) :
    PrimInv A s
      { visited := st.visited ++ [e.2.2]
        queue := pushEdges A e.2.2 rest
        M := setSym st.M e.2.1 e.2.2 e.1 } := by
  obtain ⟨hmem, -, hcases, hsub, -⟩ := popMin_spec st.queue e rest hp
  obtain ⟨huV, hpos, hwval⟩ := h.queue_src e hmem
  have hne : e.2.1 ≠ e.2.2 := fun hc => hv (hc ▸ huV)
  have h0 : st.M e.2.1 e.2.2 = 0 := by
    by_contra hb
    exact hv (h.Msupp _ _ hb).2
  have h0' : st.M e.2.2 e.2.1 = 0 := by
    by_contra hb
    exact hv (h.Msupp _ _ hb).1
  refine ⟨?_, ?_, ?_, ?_, ?_, ?_, ?_, ?_, ?_⟩
  · simp [List.nodup_append, h.nodup, hv]
  · exact List.mem_append_left _ h.start_mem
  · intro f hf
    rcases (mem_pushEdges A e.2.2 rest f).mp hf with hf1 | ⟨j, hj, hf2⟩
    · obtain ⟨h1, h2, h3⟩ := h.queue_src f (hsub f hf1)
      exact ⟨List.mem_append_left _ h1, h2, h3⟩
    · rw [hf2]
      exact ⟨List.mem_append_right _ (List.mem_singleton_self _), hj, rfl⟩
  · intro x hx y hpos2 hyV
    have hyV1 : y ∉ st.visited := fun hc => hyV (List.mem_append_left _ hc)
    have hyne : y ≠ e.2.2 := fun hc => hyV (by
      rw [hc]; exact List.mem_append_right _ (List.mem_singleton_self _))
    rcases List.mem_append.mp hx with hx1 | hx1
    · rcases hcases _ (h.crossing x hx1 y hpos2 hyV1) with hc | hc
      · exfalso
        apply hyne
        rw [← hc]
      · exact (mem_pushEdges A e.2.2 rest _).mpr (Or.inl hc)
    · rw [List.mem_singleton.mp hx1]
      refine (mem_pushEdges A e.2.2 rest _).mpr (Or.inr ⟨y, ?_, rfl⟩)
      rw [← List.mem_singleton.mp hx1]
      exact hpos2
  · intro i j
    show setSym st.M e.2.1 e.2.2 e.1 i j = setSym st.M e.2.1 e.2.2 e.1 j i
    unfold setSym
    by_cases hc : (i = e.2.1 ∧ j = e.2.2) ∨ (i = e.2.2 ∧ j = e.2.1)
    · rw [if_pos hc, if_pos (by tauto)]
    · rw [if_neg hc, if_neg (by tauto)]
      exact h.Msymm i j
  · intro i
    show setSym st.M e.2.1 e.2.2 e.1 i i = 0
    unfold setSym
    rw [if_neg (by
      rintro (⟨h1, h2⟩ | ⟨h1, h2⟩)
      · exact hne (h1 ▸ h2 ▸ rfl)
      · exact hne (h2 ▸ h1 ▸ rfl))]
    exact h.Mdiag i
  · intro i j hnz
    have hnz' : (if (i = e.2.1 ∧ j = e.2.2) ∨ (i = e.2.2 ∧ j = e.2.1)
        then e.1 else st.M i j) ≠ 0 := hnz
    by_cases hc : (i = e.2.1 ∧ j = e.2.2) ∨ (i = e.2.2 ∧ j = e.2.1)
    · rcases hc with ⟨h1, h2⟩ | ⟨h1, h2⟩
      · exact ⟨List.mem_append_left _ (h1 ▸ huV),
          List.mem_append_right _ (by rw [h2]; exact List.mem_singleton_self _)⟩
      · exact ⟨List.mem_append_right _ (by rw [h1]; exact List.mem_singleton_self _),
          List.mem_append_left _ (h2 ▸ huV)⟩
    · rw [if_neg hc] at hnz'
      obtain ⟨h1, h2⟩ := h.Msupp i j hnz'
      exact ⟨List.mem_append_left _ h1, List.mem_append_left _ h2⟩
  · intro i j hnz
    have hnz' : (if (i = e.2.1 ∧ j = e.2.2) ∨ (i = e.2.2 ∧ j = e.2.1)
        then e.1 else st.M i j) ≠ 0 := hnz
    show (if (i = e.2.1 ∧ j = e.2.2) ∨ (i = e.2.2 ∧ j = e.2.1)
        then e.1 else st.M i j) = A i j ∧ 0 < A i j
    by_cases hc : (i = e.2.1 ∧ j = e.2.2) ∨ (i = e.2.2 ∧ j = e.2.1)
    · rw [if_pos hc]
      rcases hc with ⟨h1, h2⟩ | ⟨h1, h2⟩
      · rw [h1, h2, hwval]
        exact ⟨rfl, hpos⟩
      · rw [h1, h2, hwval, hsym e.2.1 e.2.2]
        refine ⟨rfl, ?_⟩
        rw [← hsym e.2.1 e.2.2]
        exact hpos
    · rw [if_neg hc]
      rw [if_neg hc] at hnz'
      exact h.Mval i j hnz'
  · show lowCount (setSym st.M e.2.1 e.2.2 e.1) + 1 = (st.visited ++ [e.2.2]).length
    rw [lowCount_setSym st.M e.2.1 e.2.2 e.1 hne (by rw [hwval]; exact ne_of_gt hpos) h0 h0']
    rw [List.length_append, List.length_singleton]
    have := h.count
    omega


/-! ### The Prim loop under a connected input -/

/-- Generic invariant propagation through the Prim loop: a predicate preserved
by both kinds of step holds in the final state when the loop succeeds. -/
theorem mstLoop_ok_gen {n : ℕ} (A : Mat n) (P : MstSt n → Prop)
    (hskip : ∀ (st : MstSt n) (e : EdgeT n) (rest : List (EdgeT n)),
      st.visited.length < n → popMin st.queue = some (e, rest) →
      e.2.2 ∈ st.visited → P st → P { st with queue := rest })
    (hadd : ∀ (st : MstSt n) (e : EdgeT n) (rest : List (EdgeT n)),
      st.visited.length < n → popMin st.queue = some (e, rest) →
      e.2.2 ∉ st.visited → P st →
      P { visited := st.visited ++ [e.2.2], queue := pushEdges A e.2.2 rest,
          M := setSym st.M e.2.1 e.2.2 e.1 }) :
    ∀ (fuel : ℕ) (st : MstSt n), P st → ∀ M, mstLoop A fuel st = .ok M →
      ∃ st', P st' ∧ n ≤ st'.visited.length ∧ st'.M = M := by
  intro fuel
  induction fuel with
  | zero =>
    intro st hP M hok
    by_cases h : st.visited.length < n
    · rw [mstLoop_zero A st h] at hok
      exact Except.noConfusion hok
    · rw [mstLoop_done A 0 st h] at hok
      exact ⟨st, hP, by omega, Except.ok.inj hok⟩
  | succ fuel ih =>
    intro st hP M hok
    by_cases h : st.visited.length < n
    · cases hp : popMin st.queue with
      | none =>
        rw [mstLoop_succ_empty A fuel st h hp] at hok
        exact Except.noConfusion hok
      | some pr =>
        obtain ⟨e, rest⟩ := pr
        by_cases hv : e.2.2 ∈ st.visited
        · rw [mstLoop_succ_skip A fuel st e rest h hp hv] at hok
          exact ih _ (hskip st e rest h hp hv hP) M hok
        · rw [mstLoop_succ_add A fuel st e rest h hp hv] at hok
          exact ih _ (hadd st e rest h hp hv hP) M hok
    · rw [mstLoop_done A (fuel + 1) st h] at hok
      exact ⟨st, hP, by omega, Except.ok.inj hok⟩

theorem exists_not_mem_of_length_lt {n : ℕ} {l : List (Fin n)} (hnd : l.Nodup)
    (hlt : l.length < n) : ∃ z : Fin n, z ∉ l := by
  by_contra h
  push_neg at h
  have hsub : (Finset.univ : Finset (Fin n)) ⊆ l.toFinset := fun v _ =>
    List.mem_toFinset.mpr (h v)
  have hcard := Finset.card_le_card hsub
  rw [Finset.card_univ, Fintype.card_fin, List.toFinset_card_of_nodup hnd] at hcard
  omega

/-- A reachable vertex outside a set containing the start forces a
positive-weight edge crossing out of the set. -/
theorem exists_crossing_edge {n : ℕ} {A : Mat n} {s : Fin n} {V : List (Fin n)}
    (hs : s ∈ V) {z : Fin n} (hz : ReachRel (primAdj A) s z) :
    z ∉ V → ∃ u v : Fin n, u ∈ V ∧ v ∉ V ∧ 0 < A u v := by
  induction hz with
  | refl => intro hc; exact absurd hs hc
  | tail hu hadj ih =>
    intro hvV
    rename_i u v
    by_cases huV : u ∈ V
    · refine ⟨u, v, huV, hvV, ?_⟩
      unfold primAdj at hadj
      exact of_decide_eq_true hadj
    · exact ih huV

/-- If every vertex is reachable from the start, the Prim loop with fuel at
least its measure succeeds. -/
theorem mstLoop_ok_exists {n : ℕ} (A : Mat n) (s : Fin n)
    (hsym : ∀ i j, A i j = A j i) (hconn : ConnectedFrom A s) :
    ∀ (fuel : ℕ) (st : MstSt n), PrimInv A s st →
      st.queue.length + (n - st.visited.length) * n ≤ fuel →
      ∃ M, mstLoop A fuel st = .ok M := by
  intro fuel
  induction fuel with
  | zero =>
    intro st hP hm
    by_cases h : st.visited.length < n
    · exfalso
      have h1 : n ≤ (n - st.visited.length) * n :=
        Nat.le_mul_of_pos_left n (by omega)
      omega
    · exact ⟨st.M, mstLoop_done A 0 st h⟩
  | succ fuel ih =>
    intro st hP hm
    by_cases h : st.visited.length < n
    · obtain ⟨z, hz⟩ := exists_not_mem_of_length_lt hP.nodup h
      obtain ⟨u, v, huV, hvV, hpos⟩ :=
        exists_crossing_edge hP.start_mem (reachSet_sound (hconn z)) hz
      have hq : (A u v, u, v) ∈ st.queue := hP.crossing u huV v hpos hvV
      cases hp : popMin st.queue with
      | none =>
        exfalso
        rw [popMin_eq_none hp] at hq
        exact absurd hq (List.not_mem_nil _)
      | some pr =>
        obtain ⟨e, rest⟩ := pr
        obtain ⟨-, hlen, -, -, -⟩ := popMin_spec st.queue e rest hp
        by_cases hv : e.2.2 ∈ st.visited
        · rw [mstLoop_succ_skip A fuel st e rest h hp hv]
          apply ih _ (primInv_skip hp hv hP)
          simp only
          omega
        · rw [mstLoop_succ_add A fuel st e rest h hp hv]
          apply ih _ (primInv_add hsym hp hv hP)
          have hpl := pushEdges_length A e.2.2 rest
          have hmul : (n - st.visited.length) * n
              = (n - (st.visited.length + 1)) * n + n := by
            have h2 : n - st.visited.length = (n - (st.visited.length + 1)) + 1 := by
              omega
            rw [h2, add_mul, one_mul]
          simp only [List.length_append, List.length_singleton]
          omega
    · exact ⟨st.M, mstLoop_done A (fuel + 1) st h⟩

/-- The measure of the initial `construct_mst` state is at most `n * n`. -/
theorem init_measure_le {n : ℕ} (A : Mat n) (s : Fin n) :
    (pushEdges A s []).length + (n - ([s] : List (Fin n)).length) * n ≤ n * n := by
  have hpl := pushEdges_length A s ([] : List (EdgeT n))
  have hn : 0 < n := s.pos
  have hmul : (n - 1) * n + n = n * n := by
    have h2 : n - 1 + 1 = n := by omega
    calc (n - 1) * n + n = (n - 1 + 1) * n := by rw [add_mul, one_mul]
      _ = n * n := by rw [h2]
  rw [List.length_nil] at hpl
  simp only [List.length_singleton]
  omega

/-- On a symmetric input whose vertices are all reachable from the start,
`construct_mst` succeeds and its result is the matrix of a final loop state
that satisfies the full invariant with a complete visited list. -/
theorem construct_ok_inv {n : ℕ} (A : Mat n) (s : Fin n)
    (hsym : ∀ i j, A i j = A j i) (hconn : ConnectedFrom A s) :
    ∃ M, construct A s = .ok M ∧
      ∃ st' : MstSt n, PrimInv A s st' ∧ n ≤ st'.visited.length ∧ st'.M = M := by
  obtain ⟨M, hok⟩ := mstLoop_ok_exists A s hsym hconn (n * n) _ (primInv_init A s)
    (init_measure_le A s)
  refine ⟨M, hok, ?_⟩
  exact mstLoop_ok_gen A (PrimInv A s)
    (fun st e rest _ hp hv hP => primInv_skip hp hv hP)
    (fun st e rest _ hp hv hP => primInv_add hsym hp hv hP)
    (n * n) _ (primInv_init A s) M hok

/-! ### Claims C6, C7, C8 -/

/-- C6: for every valid (symmetric, non-negative, connected) input and every
start vertex, the matrix produced by `construct_mst` is symmetric:
`MST[i][j] == MST[j][i]` for every pair of indices. -/
theorem construct_mst_symmetric {n : ℕ} (A : Mat n) (s : Fin n)
    (hsym : ∀ i j, A i j = A j i) (hnn : ∀ i j, 0 ≤ A i j)
    (hconn : ConnectedFrom A s) :
    ∃ M, construct A s = .ok M ∧ ∀ i j, M i j = M j i := by
  obtain ⟨M, hok, st', hinv, -, hM⟩ := construct_ok_inv A s hsym hconn
  refine ⟨M, hok, fun i j => ?_⟩
  rw [← hM]
  exact hinv.Msymm i j

/-- Witness for C6 on the 2-vertex path graph. -/
theorem construct_mst_symmetric_witness :
    (∀ i j, pathGraph2 i j = pathGraph2 j i) ∧ (∀ i j, 0 ≤ pathGraph2 i j) ∧
      ConnectedFrom pathGraph2 0 ∧
      ∃ M, construct pathGraph2 0 = .ok M ∧ ∀ i j, M i j = M j i :=
  ⟨by decide, by decide, by decide,
    construct_mst_symmetric pathGraph2 0 (by decide) (by decide) (by decide)⟩

/-- C7: for every valid input and every start vertex, every positive entry of
the matrix produced by `construct_mst` equals the corresponding entry of the
input adjacency matrix. -/
theorem construct_mst_subset_of_input {n : ℕ} (A : Mat n) (s : Fin n)
    (hsym : ∀ i j, A i j = A j i) (hnn : ∀ i j, 0 ≤ A i j)
    (hconn : ConnectedFrom A s) :
    ∃ M, construct A s = .ok M ∧ ∀ i j, 0 < M i j → M i j = A i j := by
  obtain ⟨M, hok, st', hinv, -, hM⟩ := construct_ok_inv A s hsym hconn
  refine ⟨M, hok, fun i j hpos => ?_⟩
  rw [← hM] at hpos ⊢
  exact (hinv.Mval i j (ne_of_gt hpos)).1

/-- Witness for C7 on the 2-vertex path graph. -/
theorem construct_mst_subset_of_input_witness :
    (∀ i j, pathGraph2 i j = pathGraph2 j i) ∧ (∀ i j, 0 ≤ pathGraph2 i j) ∧
      ConnectedFrom pathGraph2 0 ∧
      ∃ M, construct pathGraph2 0 = .ok M ∧ ∀ i j, 0 < M i j → M i j = pathGraph2 i j :=
  ⟨by decide, by decide, by decide,
    construct_mst_subset_of_input pathGraph2 0 (by decide) (by decide) (by decide)⟩

/-- C8: for every connected n-vertex valid input and every start vertex, the
matrix produced by `construct_mst` has exactly `n - 1` nonzero entries in its
strict lower triangle. -/
theorem construct_mst_edge_count {n : ℕ} (A : Mat n) (s : Fin n)
    (hsym : ∀ i j, A i j = A j i) (hnn : ∀ i j, 0 ≤ A i j)
    (hconn : ConnectedFrom A s) :
    ∃ M, construct A s = .ok M ∧ lowCount M = n - 1 := by
  obtain ⟨M, hok, st', hinv, hlen, hM⟩ := construct_ok_inv A s hsym hconn
  refine ⟨M, hok, ?_⟩
  have hle : st'.visited.length ≤ n := by
    simpa using hinv.nodup.length_le_card
  have hc := hinv.count
  rw [hM] at hc
  omega

/-- Witness for C8 on the 2-vertex path graph (`n - 1 = 1`). -/
theorem construct_mst_edge_count_witness :
    (∀ i j, pathGraph2 i j = pathGraph2 j i) ∧ (∀ i j, 0 ≤ pathGraph2 i j) ∧
      ConnectedFrom pathGraph2 0 ∧
      ∃ M, construct pathGraph2 0 = .ok M ∧ lowCount M = 2 - 1 :=
  ⟨by decide, by decide, by decide,
    construct_mst_edge_count pathGraph2 0 (by decide) (by decide) (by decide)⟩

/-! ### Spanning trees over unordered edges -/

/-- The weight of an unordered pair of vertices: the two matrix entries agree
on a symmetric matrix, and `min` makes the function well defined on `Sym2`. -/
def wS {n : ℕ} (A : Mat n) : Sym2 (Fin n) → ℚ :=
  Sym2.lift ⟨fun u v => min (A u v) (A v u), fun u v => min_comm _ _⟩

theorem wS_mk {n : ℕ} (A : Mat n) (u v : Fin n) :
    wS A s(u, v) = min (A u v) (A v u) := rfl

theorem wS_mk_symm {n : ℕ} {A : Mat n} (hsym : ∀ i j, A i j = A j i)
    (u v : Fin n) : wS A s(u, v) = A u v := by
  rw [wS_mk, ← hsym u v, min_self]

/-- An unordered pair is an edge of the graph of `A` when it is off-diagonal
and carries positive weight. -/
def edgeOK {n : ℕ} (A : Mat n) (e : Sym2 (Fin n)) : Prop :=
  ¬e.IsDiag ∧ 0 < wS A e

instance {n : ℕ} (A : Mat n) : DecidablePred (edgeOK A) := fun e => by
  unfold edgeOK; exact instDecidableAnd

/-- The simple graph on `Fin n` whose edges are the members of `T`. -/
def graphOfEdges {n : ℕ} (T : Finset (Sym2 (Fin n))) : SimpleGraph (Fin n) where
  Adj u v := u ≠ v ∧ s(u, v) ∈ T
  symm := by
    intro u v h
    exact ⟨h.1.symm, by rw [Sym2.eq_swap]; exact h.2⟩
  loopless := by
    intro u h
    exact h.1 rfl

theorem graphOfEdges_adj {n : ℕ} (T : Finset (Sym2 (Fin n))) (u v : Fin n) :
    (graphOfEdges T).Adj u v ↔ u ≠ v ∧ s(u, v) ∈ T := Iff.rfl

instance {n : ℕ} (T : Finset (Sym2 (Fin n))) :
    DecidableRel (graphOfEdges T).Adj := fun u v => by
  rw [graphOfEdges_adj]; exact instDecidableAnd

/-- A spanning tree of the graph of `A`: a set of edges of `A` whose graph is
connected and acyclic (and therefore spans all `n` vertices). -/
def IsSpanningTree {n : ℕ} (A : Mat n) (T : Finset (Sym2 (Fin n))) : Prop :=
  (∀ e ∈ T, edgeOK A e) ∧ (graphOfEdges T).Connected ∧ (graphOfEdges T).IsAcyclic

/-- The total weight of a set of unordered edges. -/
def weightS {n : ℕ} (A : Mat n) (T : Finset (Sym2 (Fin n))) : ℚ :=
  T.sum (wS A)

/-- A minimum spanning tree: a spanning tree of least total weight. -/
def IsMST {n : ℕ} (A : Mat n) (T : Finset (Sym2 (Fin n))) : Prop :=
  IsSpanningTree A T ∧ ∀ T', IsSpanningTree A T' → weightS A T ≤ weightS A T'

/-- The unordered edges read off a matrix: off-diagonal pairs with positive
weight. -/
def edgesOf {n : ℕ} (M : Mat n) : Finset (Sym2 (Fin n)) :=
  Finset.univ.filter (edgeOK M)

theorem mem_edgesOf {n : ℕ} {M : Mat n} {e : Sym2 (Fin n)} :
    e ∈ edgesOf M ↔ edgeOK M e := by
  unfold edgesOf
  rw [Finset.mem_filter]
  exact ⟨fun h => h.2, fun h => ⟨Finset.mem_univ e, h⟩⟩

theorem mem_edgesOf_mk {n : ℕ} {M : Mat n} (hsymm : ∀ i j, M i j = M j i)
    {i j : Fin n} : s(i, j) ∈ edgesOf M ↔ i ≠ j ∧ 0 < M i j := by
  rw [mem_edgesOf]
  unfold edgeOK
  rw [Sym2.mk_isDiag_iff, wS_mk_symm hsymm]

theorem edgeFinset_graphOfEdges {n : ℕ} (T : Finset (Sym2 (Fin n)))
    (hnd : ∀ e ∈ T, ¬e.IsDiag) :
    (graphOfEdges T).edgeFinset = T := by
  ext e
  induction e using Sym2.ind with
  | _ u v =>
    rw [SimpleGraph.mem_edgeFinset, SimpleGraph.mem_edgeSet, graphOfEdges_adj]
    constructor
    · intro h; exact h.2
    · intro h
      refine ⟨?_, h⟩
      intro hc
      exact hnd _ h (by rw [hc]; exact Sym2.mk_isDiag_iff.mpr rfl)

/-- A spanning tree on `Fin n` has exactly `n - 1` edges. -/
theorem isSpanningTree_card {n : ℕ} {A : Mat n} {T : Finset (Sym2 (Fin n))}
    (hT : IsSpanningTree A T) : T.card + 1 = n := by
  have htree : (graphOfEdges T).IsTree := ⟨hT.2.1, hT.2.2⟩
  have hcard := htree.card_edgeFinset
  rw [edgeFinset_graphOfEdges T (fun e he => (hT.1 e he).1), Fintype.card_fin] at hcard
  exact hcard

/-! ### Walk surgery -/

theorem walk_split_at_edge {V : Type} {G : SimpleGraph V} {a b : V}
    (W : G.Walk a b) (f : Sym2 V) (hf : f ∈ W.edges) :
    ∃ (x y : V) (W1 : G.Walk a x) (W2 : G.Walk y b),
      f = s(x, y) ∧ W.edges = W1.edges ++ f :: W2.edges := by
  induction W with
  | nil => simp at hf
  | @cons c d e h W' ih =>
    rw [SimpleGraph.Walk.edges_cons, List.mem_cons] at hf
    rcases hf with hf | hf
    · refine ⟨c, d, SimpleGraph.Walk.nil, W', hf, ?_⟩
      rw [SimpleGraph.Walk.edges_cons, hf]
      rfl
    · obtain ⟨x, y, W1, W2, hfxy, heq⟩ := ih hf
      refine ⟨x, y, SimpleGraph.Walk.cons h W1, W2, hfxy, ?_⟩
      rw [SimpleGraph.Walk.edges_cons, SimpleGraph.Walk.edges_cons, heq,
        List.cons_append]

theorem walk_first_crossing {V : Type} {G : SimpleGraph V} (P : V → Prop) :
    ∀ {a b : V} (W : G.Walk a b), P a → ¬P b →
      ∃ (x y : V) (W1 : G.Walk a x) (W2 : G.Walk y b),
        P x ∧ ¬P y ∧ W.edges = W1.edges ++ s(x, y) :: W2.edges := by
  intro a b W
  induction W with
  | nil => intro ha hb; exact absurd ha hb
  | @cons c d e h W' ih =>
    intro ha hb
    by_cases hPd : P d
    · obtain ⟨x, y, W1, W2, hx, hy, heq⟩ := ih hPd hb
      refine ⟨x, y, SimpleGraph.Walk.cons h W1, W2, hx, hy, ?_⟩
      rw [SimpleGraph.Walk.edges_cons, SimpleGraph.Walk.edges_cons, heq,
        List.cons_append]
    · refine ⟨c, d, SimpleGraph.Walk.nil, W', ha, hPd, ?_⟩
      rw [SimpleGraph.Walk.edges_cons]
      rfl

theorem reroute_reachable {V : Type} {G G' : SimpleGraph V} {x y : V}
    (hkeep : ∀ a b, G.Adj a b → s(a, b) ≠ s(x, y) → G'.Adj a b)
    (hxy : G'.Reachable x y) :
    ∀ {a b : V}, G.Walk a b → G'.Reachable a b := by
  intro a b W
  induction W with
  | nil => exact SimpleGraph.Reachable.refl _
  | @cons c d e h W' ih =>
    by_cases hc : s(c, d) = s(x, y)
    · have hreach : G'.Reachable c d := by
        rcases Sym2.eq_iff.mp hc with ⟨h1, h2⟩ | ⟨h1, h2⟩
        · rw [h1, h2]; exact hxy
        · rw [h1, h2]; exact hxy.symm
      exact hreach.trans ih
    · exact ((hkeep c d h hc).reachable).trans ih

theorem isPath_transfer {V : Type} {G H : SimpleGraph V} {a b : V}
    (W : G.Walk a b) (hW : W.IsPath)
    (hsub : ∀ e ∈ W.edges, e ∈ H.edgeSet) :
    (W.transfer H hsub).IsPath := by
  rw [SimpleGraph.Walk.isPath_def] at hW ⊢
  rw [SimpleGraph.Walk.support_transfer]
  exact hW

/-! ### Spanning trees from connected edge sets -/

theorem exists_tree_subset {n : ℕ} :
    ∀ (k : ℕ) (T : Finset (Sym2 (Fin n))), T.card ≤ k →
      (∀ e ∈ T, ¬e.IsDiag) → (graphOfEdges T).Connected →
      ∃ T' , T' ⊆ T ∧ (graphOfEdges T').Connected ∧ (graphOfEdges T').IsAcyclic := by
  intro k
  induction k with
  | zero =>
    intro T hcard hnd hc
    have hT : T = ∅ := Finset.card_eq_zero.mp (by omega)
    refine ⟨T, Finset.Subset.refl T, hc, ?_⟩
    subst hT
    intro w c hcyc
    cases c with
    | nil => exact SimpleGraph.Walk.IsCycle.not_of_nil hcyc
    | cons hadj c' => exact absurd hadj.2 (Finset.not_mem_empty _)
  | succ k ih =>
    intro T hcard hnd hc
    by_cases hac : (graphOfEdges T).IsAcyclic
    · exact ⟨T, Finset.Subset.refl T, hc, hac⟩
    · unfold SimpleGraph.IsAcyclic at hac
      push_neg at hac
      obtain ⟨w, c, hcyc⟩ := hac
      cases c with
      | nil => exact absurd hcyc SimpleGraph.Walk.IsCycle.not_of_nil
      | @cons _ d _ hadj c' =>
        have hfT : s(w, d) ∈ T := hadj.2
        have hnodup : (s(w, d) :: c'.edges).Nodup := by
          have htr := hcyc.toIsCircuit.toIsTrail
          rw [SimpleGraph.Walk.isTrail_def, SimpleGraph.Walk.edges_cons] at htr
          exact htr
        have hfc' : s(w, d) ∉ c'.edges := (List.nodup_cons.mp hnodup).1
        have hkeep : ∀ a b, (graphOfEdges T).Adj a b → s(a, b) ≠ s(w, d) →
            (graphOfEdges (T.erase s(w, d))).Adj a b := fun a b hab hne =>
          ⟨hab.1, Finset.mem_erase.mpr ⟨hne, hab.2⟩⟩
        have hc'sub : ∀ e ∈ c'.edges, e ∈ (graphOfEdges (T.erase s(w, d))).edgeSet := by
          intro e he
          have heG := c'.edges_subset_edgeSet he
          have hne : e ≠ s(w, d) := fun hc2 => hfc' (hc2 ▸ he)
          induction e using Sym2.ind with
          | _ a b =>
            rw [SimpleGraph.mem_edgeSet] at heG ⊢
            exact ⟨heG.1, Finset.mem_erase.mpr ⟨hne, heG.2⟩⟩
        have hwd : (graphOfEdges (T.erase s(w, d))).Reachable w d :=
          (SimpleGraph.Walk.reachable (c'.transfer _ hc'sub)).symm
        have hconn2 : (graphOfEdges (T.erase s(w, d))).Connected := by
          rw [SimpleGraph.connected_iff]
          refine ⟨fun a b => ?_, ⟨w⟩⟩
          obtain ⟨Wab⟩ := hc.preconnected a b
          exact reroute_reachable hkeep hwd Wab
        obtain ⟨T', hsub, h1, h2⟩ := ih (T.erase s(w, d))
          (by rw [Finset.card_erase_of_mem hfT]; omega)
          (fun e he => hnd e (Finset.mem_of_mem_erase he)) hconn2
        exact ⟨T', hsub.trans (Finset.erase_subset _ _), h1, h2⟩

/-- A connected edge set on `Fin n` with `n - 1` edges is acyclic. -/
theorem acyclic_of_connected_card {n : ℕ} {T : Finset (Sym2 (Fin n))}
    (hnd : ∀ e ∈ T, ¬e.IsDiag) (hc : (graphOfEdges T).Connected)
    (hcard : T.card + 1 = n) : (graphOfEdges T).IsAcyclic := by
  obtain ⟨T', hsub, hc', ha'⟩ := exists_tree_subset T.card T (le_refl _) hnd hc
  have htree : (graphOfEdges T').IsTree := ⟨hc', ha'⟩
  have hnd' : ∀ e ∈ T', ¬e.IsDiag := fun e he => hnd e (hsub he)
  have hcard' := htree.card_edgeFinset
  rw [edgeFinset_graphOfEdges T' hnd', Fintype.card_fin] at hcard'
  have heq : T' = T := Finset.eq_of_subset_of_card_le hsub (by omega)
  rw [← heq]
  exact ha'

/-- Exchanging an edge lying on a tree path between `u` and `v` for the fresh
edge `s(u,v)` yields another spanning tree whose weight differs by the two
edge weights. -/
theorem swap_spanning_tree {n : ℕ} {A : Mat n} {T : Finset (Sym2 (Fin n))}
    (hT : IsSpanningTree A T) {u v : Fin n}
    (he_ok : edgeOK A s(u, v)) (heT : s(u, v) ∉ T)
    {W : (graphOfEdges T).Walk u v} (hWp : W.IsPath)
    {f : Sym2 (Fin n)} (hfW : f ∈ W.edges) :
    IsSpanningTree A (insert s(u, v) (T.erase f)) ∧
      weightS A (insert s(u, v) (T.erase f))
        = weightS A T - wS A f + wS A s(u, v) := by
  obtain ⟨x, y, W1, W2, hfxy, heq⟩ := walk_split_at_edge W f hfW
  subst hfxy
  have hfT : s(x, y) ∈ T := by
    have hmem := W.edges_subset_edgeSet hfW
    rw [SimpleGraph.mem_edgeSet] at hmem
    exact hmem.2
  have huv_ne : s(u, v) ≠ s(x, y) := fun hc => heT (hc ▸ hfT)
  have huv_notmem : s(u, v) ∉ T.erase s(x, y) := fun hc =>
    heT (Finset.mem_of_mem_erase hc)
  have hu_ne_v : u ≠ v := fun hc =>
    he_ok.1 (by rw [hc]; exact Sym2.mk_isDiag_iff.mpr rfl)
  have hnodup : W.edges.Nodup := hWp.toIsTrail.edges_nodup
  rw [heq, List.nodup_append] at hnodup
  have hfW1 : s(x, y) ∉ W1.edges := fun hc =>
    (hnodup.2.2 hc) (List.mem_cons_self _ _)
  have hfW2 : s(x, y) ∉ W2.edges := (List.nodup_cons.mp hnodup.2.1).1
  have hseg : ∀ (a b : Fin n) (Wseg : (graphOfEdges T).Walk a b),
      (∀ e ∈ Wseg.edges, e ∈ W.edges) → s(x, y) ∉ Wseg.edges →
      ∀ e ∈ Wseg.edges,
        e ∈ (graphOfEdges (insert s(u, v) (T.erase s(x, y)))).edgeSet := by
    intro a b Wseg hWsub hfseg e he
    have heG := Wseg.edges_subset_edgeSet he
    have hne : e ≠ s(x, y) := fun hc => hfseg (hc ▸ he)
    induction e using Sym2.ind with
    | _ c d =>
      rw [SimpleGraph.mem_edgeSet] at heG ⊢
      exact ⟨heG.1, Finset.mem_insert.mpr
        (Or.inr (Finset.mem_erase.mpr ⟨hne, heG.2⟩))⟩
  have hW1sub : ∀ e ∈ W1.edges, e ∈ W.edges := by
    intro e he; rw [heq]; exact List.mem_append_left _ he
  have hW2sub : ∀ e ∈ W2.edges, e ∈ W.edges := by
    intro e he; rw [heq]
    exact List.mem_append_right _ (List.mem_cons_of_mem _ he)
  have hreach1 := SimpleGraph.Walk.reachable
    (W1.transfer _ (hseg u x W1 hW1sub hfW1))
  have hreach2 := SimpleGraph.Walk.reachable
    (W2.transfer _ (hseg y v W2 hW2sub hfW2))
  have hadj_uv : (graphOfEdges (insert s(u, v) (T.erase s(x, y)))).Adj u v :=
    ⟨hu_ne_v, Finset.mem_insert_self _ _⟩
  have hxy : (graphOfEdges (insert s(u, v) (T.erase s(x, y)))).Reachable x y :=
    (hreach1.symm.trans hadj_uv.reachable).trans hreach2.symm
  have hkeep : ∀ a b, (graphOfEdges T).Adj a b → s(a, b) ≠ s(x, y) →
      (graphOfEdges (insert s(u, v) (T.erase s(x, y)))).Adj a b :=
    fun a b hab hne =>
      ⟨hab.1, Finset.mem_insert.mpr (Or.inr (Finset.mem_erase.mpr ⟨hne, hab.2⟩))⟩
  have hconn' : (graphOfEdges (insert s(u, v) (T.erase s(x, y)))).Connected := by
    rw [SimpleGraph.connected_iff]
    refine ⟨fun a b => ?_, ⟨u⟩⟩
    obtain ⟨Wab⟩ := hT.2.1.preconnected a b
    exact reroute_reachable hkeep hxy Wab
  have hcardT : T.card + 1 = n := isSpanningTree_card hT
  have hcard' : (insert s(u, v) (T.erase s(x, y))).card = T.card := by
    rw [Finset.card_insert_of_not_mem huv_notmem,
      Finset.card_erase_of_mem hfT]
    have hpos : 1 ≤ T.card := Finset.card_pos.mpr ⟨s(x, y), hfT⟩
    omega
  have hok' : ∀ e ∈ insert s(u, v) (T.erase s(x, y)), edgeOK A e := by
    intro e he
    rcases Finset.mem_insert.mp he with rfl | he2
    · exact he_ok
    · exact hT.1 e (Finset.mem_of_mem_erase he2)
  have hnd' : ∀ e ∈ insert s(u, v) (T.erase s(x, y)), ¬e.IsDiag :=
    fun e he => (hok' e he).1
  have hacyc' := acyclic_of_connected_card hnd' hconn' (by omega)
  refine ⟨⟨hok', hconn', hacyc'⟩, ?_⟩
  unfold weightS
  rw [Finset.sum_insert huv_notmem, Finset.sum_erase_eq_sub hfT]
  ring

/-- On a symmetric zero-diagonal matrix, reachability through positive entries
makes the graph of its edges connected. -/
theorem graphOf_edgesOf_connected {n : ℕ} {A : Mat n} {s : Fin n}
    (hsym : ∀ i j, A i j = A j i) (hdiag : ∀ i, A i i = 0)
    (hconn : ConnectedFrom A s) : (graphOfEdges (edgesOf A)).Connected := by
  have key : ∀ v : Fin n, (graphOfEdges (edgesOf A)).Reachable s v := by
    intro v
    have hv := reachSet_sound (hconn v)
    induction hv with
    | refl => exact SimpleGraph.Reachable.refl s
    | @tail p q hu hadj ih =>
      have hpos : 0 < A p q := by
        unfold primAdj at hadj
        exact of_decide_eq_true hadj
      have hne : p ≠ q := by
        intro hc
        rw [hc, hdiag q] at hpos
        exact lt_irrefl _ hpos
      have hadj2 : (graphOfEdges (edgesOf A)).Adj p q := by
        refine ⟨hne, ?_⟩
        rw [mem_edgesOf_mk hsym]
        exact ⟨hne, hpos⟩
      exact ih.trans hadj2.reachable
  rw [SimpleGraph.connected_iff]
  exact ⟨fun a b => (key a).symm.trans (key b), ⟨s⟩⟩

/-- A connected symmetric zero-diagonal graph has a minimum spanning tree. -/
theorem exists_isMST {n : ℕ} {A : Mat n} {s : Fin n}
    (hsym : ∀ i j, A i j = A j i) (hdiag : ∀ i, A i i = 0)
    (hconn : ConnectedFrom A s) : ∃ T, IsMST A T := by
  have hconnG := graphOf_edgesOf_connected hsym hdiag hconn
  obtain ⟨T0, hsub0, hc0, ha0⟩ := exists_tree_subset (edgesOf A).card (edgesOf A)
    (le_refl _) (fun e he => (mem_edgesOf.mp he).1) hconnG
  have hsp0 : IsSpanningTree A T0 :=
    ⟨fun e he => mem_edgesOf.mp (hsub0 he), hc0, ha0⟩
  classical
  obtain ⟨T, hTC, hmin⟩ := Finset.exists_min_image
    (Finset.univ.filter (fun T => IsSpanningTree A T)) (weightS A)
    ⟨T0, Finset.mem_filter.mpr ⟨Finset.mem_univ _, hsp0⟩⟩
  exact ⟨T, (Finset.mem_filter.mp hTC).2, fun T' hT' =>
    hmin T' (Finset.mem_filter.mpr ⟨Finset.mem_univ _, hT'⟩)⟩

/-- Writing a fresh positive symmetric pair adds exactly that unordered edge
to the edge set of the matrix. -/
theorem edgesOf_setSym {n : ℕ} {M : Mat n} {u v : Fin n} {w : ℚ}
    (hne : u ≠ v) (hw : 0 < w) (h0 : M u v = 0) (h0' : M v u = 0) :
    edgesOf (setSym M u v w) = insert s(u, v) (edgesOf M) := by
  ext e
  induction e using Sym2.ind with
  | _ a b =>
    rw [mem_edgesOf, Finset.mem_insert, mem_edgesOf]
    unfold edgeOK
    have hval1 : setSym M u v w a b
        = if (a = u ∧ b = v) ∨ (a = v ∧ b = u) then w else M a b := rfl
    have hval2 : setSym M u v w b a
        = if (b = u ∧ a = v) ∨ (b = v ∧ a = u) then w else M b a := rfl
    by_cases hc : (a = u ∧ b = v) ∨ (a = v ∧ b = u)
    · have heq : s(a, b) = s(u, v) := by
        rcases hc with ⟨h1, h2⟩ | ⟨h1, h2⟩
        · rw [h1, h2]
        · rw [h1, h2]; exact Sym2.eq_swap
      constructor
      · intro _; exact Or.inl heq
      · intro _
        refine ⟨?_, ?_⟩
        · rw [Sym2.mk_isDiag_iff]
          rcases hc with ⟨h1, h2⟩ | ⟨h1, h2⟩
          · rw [h1, h2]; exact hne
          · rw [h1, h2]; exact hne.symm
        · rw [wS_mk, hval1, hval2, if_pos hc, if_pos (by tauto), min_self]
          exact hw
    · have hne2 : s(a, b) ≠ s(u, v) := by
        intro hc2
        rcases Sym2.eq_iff.mp hc2 with ⟨h1, h2⟩ | ⟨h1, h2⟩
        · exact hc (Or.inl ⟨h1, h2⟩)
        · exact hc (Or.inr ⟨h1, h2⟩)
      have hval : wS (setSym M u v w) s(a, b) = wS M s(a, b) := by
        rw [wS_mk, wS_mk, hval1, hval2, if_neg hc, if_neg (by tauto)]
      constructor
      · rintro ⟨hd, hpos⟩
        refine Or.inr ⟨hd, ?_⟩
        rw [← hval]
        exact hpos
      · rintro (hc2 | ⟨hd, hpos⟩)
        · exact absurd hc2 hne2
        · refine ⟨hd, ?_⟩
          rw [hval]
          exact hpos

/-- For a symmetric matrix with nonnegative support, the unordered edge count
is the strict lower-triangle count. -/
theorem card_edgesOf_eq_lowCount {n : ℕ} {M : Mat n}
    (hsymm : ∀ i j, M i j = M j i) (hpos : ∀ i j, M i j ≠ 0 → 0 < M i j) :
    (edgesOf M).card = lowCount M := by
  unfold lowCount
  refine (Finset.card_bij (fun p _ => s(p.1, p.2)) ?_ ?_ ?_).symm
  · intro p hp
    rw [Finset.mem_filter] at hp
    obtain ⟨-, hlt, hnz⟩ := hp
    rw [mem_edgesOf_mk hsymm]
    exact ⟨ne_of_gt hlt, hpos _ _ hnz⟩
  · intro p1 hp1 p2 hp2 heq
    rw [Finset.mem_filter] at hp1 hp2
    rcases Sym2.eq_iff.mp heq with ⟨h1, h2⟩ | ⟨h1, h2⟩
    · exact Prod.ext h1 h2
    · exfalso
      have ha := hp1.2.1
      have hb := hp2.2.1
      rw [h1] at ha
      rw [← h2] at hb
      exact absurd (lt_trans ha hb) (lt_irrefl _)
  · intro e he
    induction e using Sym2.ind with
    | _ a b =>
      rw [mem_edgesOf_mk hsymm] at he
      obtain ⟨hne, hpos2⟩ := he
      rcases lt_or_gt_of_ne hne with h | h
      · refine ⟨(b, a), Finset.mem_filter.mpr ⟨Finset.mem_univ _, h, ?_⟩,
          Sym2.eq_swap⟩
        rw [hsymm b a]
        exact ne_of_gt hpos2
      · exact ⟨(a, b), Finset.mem_filter.mpr
          ⟨Finset.mem_univ _, h, ne_of_gt hpos2⟩, rfl⟩

/-- The heart of Prim's correctness: accepting a minimum-weight queue entry
with an unvisited destination keeps the constructed edge set inside some
minimum spanning tree (exchange argument across the visited cut). -/
theorem mstExtends_add {n : ℕ} {A : Mat n} {s : Fin n}
    (hsym : ∀ i j, A i j = A j i) {st : MstSt n}
    {e : EdgeT n} {rest : List (EdgeT n)}
    (hp : popMin st.queue = some (e, rest)) (hv : e.2.2 ∉ st.visited)
    (hinv : PrimInv A s st) {T : Finset (Sym2 (Fin n))}
    (hmst : IsMST A T) (hsub : edgesOf st.M ⊆ T) :
    ∃ T', IsMST A T' ∧ edgesOf (setSym st.M e.2.1 e.2.2 e.1) ⊆ T' := by
  obtain ⟨hmem, -, -, -, hmin⟩ := popMin_spec st.queue e rest hp
  obtain ⟨huV, hpos, hwval⟩ := hinv.queue_src e hmem
  have hne : e.2.1 ≠ e.2.2 := fun hc => hv (hc ▸ huV)
  have h0 : st.M e.2.1 e.2.2 = 0 := by
    by_contra hb; exact hv (hinv.Msupp _ _ hb).2
  have h0' : st.M e.2.2 e.2.1 = 0 := by
    by_contra hb; exact hv (hinv.Msupp _ _ hb).1
  have hwpos : 0 < e.1 := by rw [hwval]; exact hpos
  rw [edgesOf_setSym hne hwpos h0 h0']
  by_cases hin : s(e.2.1, e.2.2) ∈ T
  · exact ⟨T, hmst, Finset.insert_subset hin hsub⟩
  · have he_ok : edgeOK A s(e.2.1, e.2.2) := by
      refine ⟨?_, ?_⟩
      · rw [Sym2.mk_isDiag_iff]; exact hne
      · rw [wS_mk_symm hsym]; exact hpos
    obtain ⟨W0⟩ := hmst.1.2.1.preconnected e.2.1 e.2.2
    have hWp : W0.bypass.IsPath := SimpleGraph.Walk.bypass_isPath W0
    obtain ⟨x, y, W1, W2, hx, hy, heqW⟩ :=
      walk_first_crossing (· ∈ st.visited) W0.bypass huV hv
    have hfW : s(x, y) ∈ W0.bypass.edges := by
      rw [heqW]
      exact List.mem_append_right _ (List.mem_cons_self _ _)
    have hfT : s(x, y) ∈ T := (W0.bypass.adj_of_mem_edges hfW).2
    have hf_ok : edgeOK A s(x, y) := hmst.1.1 _ hfT
    have hAxyPos : 0 < A x y := by
      have hh := hf_ok.2
      rw [wS_mk_symm hsym] at hh
      exact hh
    have hq : (A x y, x, y) ∈ st.queue := hinv.crossing x hx y hAxyPos hy
    have hwle : e.1 ≤ A x y := edgeLE_weight_le (hmin _ hq)
    obtain ⟨hsp', hw'⟩ := swap_spanning_tree hmst.1 he_ok hin hWp hfW
    refine ⟨insert s(e.2.1, e.2.2) (T.erase s(x, y)), ⟨hsp', ?_⟩, ?_⟩
    · intro T' hT'
      have h1 := hmst.2 T' hT'
      have h2 : weightS A (insert s(e.2.1, e.2.2) (T.erase s(x, y)))
          ≤ weightS A T := by
        rw [hw', wS_mk_symm hsym, wS_mk_symm hsym]
        have hweq : e.1 = A e.2.1 e.2.2 := hwval
        linarith
      linarith
    · refine Finset.insert_subset (Finset.mem_insert_self _ _) ?_
      intro g hg
      have hgT : g ∈ T := hsub hg
      have hgne : g ≠ s(x, y) := by
        intro hc
        subst hc
        have hedge := (mem_edgesOf.mp hg).2
        rw [wS_mk] at hedge
        have hxy0 : 0 < st.M x y := (lt_min_iff.mp hedge).1
        exact hy (hinv.Msupp x y (ne_of_gt hxy0)).2
      exact Finset.mem_insert.mpr (Or.inr (Finset.mem_erase.mpr ⟨hgne, hgT⟩))

/-- Core correctness of `construct_mst` on a valid connected input: the call
succeeds and the edge set of the result is a minimum spanning tree; the result
matrix is symmetric, zero on the diagonal, and copies positive input
entries. -/
theorem construct_mst_core {n : ℕ} (A : Mat n) (s : Fin n)
    (hsym : ∀ i j, A i j = A j i) (hdiag : ∀ i, A i i = 0)
    (hconn : ConnectedFrom A s) :
    ∃ M, construct A s = .ok M ∧ IsMST A (edgesOf M) ∧
      (∀ i j, M i j = M j i) ∧
      (∀ i j, M i j ≠ 0 → M i j = A i j ∧ 0 < A i j) ∧
      (∀ i, M i i = 0) := by
  obtain ⟨M, hok⟩ := mstLoop_ok_exists A s hsym hconn (n * n) _
    (primInv_init A s) (init_measure_le A s)
  have hok' : construct A s = .ok M := by unfold construct; exact hok
  obtain ⟨T0, hT0⟩ := exists_isMST hsym hdiag hconn
  have hinit2 : edgesOf (fun _ _ => (0 : ℚ) : Mat n) ⊆ T0 := by
    intro g hg
    exfalso
    have hpos := (mem_edgesOf.mp hg).2
    induction g using Sym2.ind with
    | _ a b =>
      rw [wS_mk] at hpos
      simp at hpos
  obtain ⟨st', hP', hlen, hM⟩ := mstLoop_ok_gen A
    (fun st => PrimInv A s st ∧ ∃ T, IsMST A T ∧ edgesOf st.M ⊆ T)
    (fun st e rest _ hp hv hP => ⟨primInv_skip hp hv hP.1, hP.2⟩)
    (fun st e rest _ hp hv hP => by
      obtain ⟨T, h1, h2⟩ := hP.2
      exact ⟨primInv_add hsym hp hv hP.1, mstExtends_add hsym hp hv hP.1 h1 h2⟩)
    (n * n) _ ⟨primInv_init A s, T0, hT0, hinit2⟩ M hok
  obtain ⟨hinv, T, hTmst, hTsub⟩ := hP'
  subst hM
  have hlen2 : st'.visited.length ≤ n := by
    simpa using hinv.nodup.length_le_card
  have hcount := hinv.count
  have hMpos : ∀ i j, st'.M i j ≠ 0 → 0 < st'.M i j := by
    intro i j h
    have hval := hinv.Mval i j h
    rw [hval.1]
    exact hval.2
  have hcard1 : (edgesOf st'.M).card = lowCount st'.M :=
    card_edgesOf_eq_lowCount hinv.Msymm hMpos
  have hcardT : T.card + 1 = n := isSpanningTree_card hTmst.1
  have heq : edgesOf st'.M = T :=
    Finset.eq_of_subset_of_card_le hTsub (by omega)
  refine ⟨st'.M, hok', ?_, hinv.Msymm, hinv.Mval, hinv.Mdiag⟩
  rw [heq]
  exact hTmst

/-- C1: for every connected, symmetric, non-negative adjacency matrix with
zero diagonal and every start vertex, `construct_mst` stores a result matrix
whose edges form a spanning tree of the input graph — connected and acyclic on
all `n` vertices — of minimal total weight among all spanning trees. -/
theorem construct_mst_is_mst {n : ℕ} (A : Mat n) (s : Fin n)
    (hsym : ∀ i j, A i j = A j i) (hnn : ∀ i j, 0 ≤ A i j)
    (hdiag : ∀ i, A i i = 0) (hconn : ConnectedFrom A s) :
    ∃ M, construct A s = .ok M ∧ IsSpanningTree A (edgesOf M) ∧
      ∀ T, IsSpanningTree A T → weightS A (edgesOf M) ≤ weightS A T := by
  obtain ⟨M, hok, hmst, -, -, -⟩ := construct_mst_core A s hsym hdiag hconn
  exact ⟨M, hok, hmst.1, hmst.2⟩

/-- Witness for C1 on the 2-vertex path graph. -/
theorem construct_mst_is_mst_witness :
    (∀ i j, pathGraph2 i j = pathGraph2 j i) ∧ (∀ i j, 0 ≤ pathGraph2 i j) ∧
      (∀ i, pathGraph2 i i = 0) ∧ ConnectedFrom pathGraph2 0 ∧
      ∃ M, construct pathGraph2 0 = .ok M ∧
        IsSpanningTree pathGraph2 (edgesOf M) ∧
        ∀ T, IsSpanningTree pathGraph2 T →
          weightS pathGraph2 (edgesOf M) ≤ weightS pathGraph2 T :=
  ⟨by decide, by decide, by decide, by decide,
    construct_mst_is_mst pathGraph2 0 (by decide) (by decide) (by decide)
      (by decide)⟩

/-! ### Uniqueness of the MST under pairwise-distinct weights -/

theorem mem_of_mem_edgeSet_graphOfEdges {n : ℕ} {T : Finset (Sym2 (Fin n))}
    {e : Sym2 (Fin n)} (h : e ∈ (graphOfEdges T).edgeSet) : e ∈ T := by
  induction e using Sym2.ind with
  | _ a b =>
    rw [SimpleGraph.mem_edgeSet] at h
    exact h.2

/-- A minimum-weight edge of the symmetric difference of two minimum spanning
trees is impossible when all edge weights are pairwise distinct. -/
theorem mst_unique_contra {n : ℕ} {A : Mat n} (hsym : ∀ i j, A i j = A j i)
    (hdistS : ∀ e f, edgeOK A e → edgeOK A f → wS A e = wS A f → e = f)
    {T1 T2 : Finset (Sym2 (Fin n))} (h1 : IsMST A T1) (h2 : IsMST A T2)
    {g : Sym2 (Fin n)} (hg : g ∈ T1 \ T2)
    (hmin : ∀ g' ∈ (T1 \ T2) ∪ (T2 \ T1), wS A g ≤ wS A g') : False := by
  rw [Finset.mem_sdiff] at hg
  obtain ⟨hgT1, hgT2⟩ := hg
  induction g using Sym2.ind with
  | _ u v =>
    have hg_ok : edgeOK A s(u, v) := h1.1.1 _ hgT1
    have hu_ne_v : u ≠ v := fun hc =>
      hg_ok.1 (by rw [hc]; exact Sym2.mk_isDiag_iff.mpr rfl)
    obtain ⟨W0⟩ := h2.1.2.1.preconnected u v
    have hWp := SimpleGraph.Walk.bypass_isPath W0
    have hex : ∃ f ∈ W0.bypass.edges, f ∉ T1 := by
      by_contra hb
      push_neg at hb
      have hsub2 : ∀ e ∈ W0.bypass.edges, e ∈ (graphOfEdges T1).edgeSet := by
        intro e he
        have heG := W0.bypass.edges_subset_edgeSet he
        induction e using Sym2.ind with
        | _ a b =>
          rw [SimpleGraph.mem_edgeSet] at heG ⊢
          exact ⟨heG.1, hb _ he⟩
      have hpath1 : (W0.bypass.transfer _ hsub2).IsPath :=
        isPath_transfer _ hWp hsub2
      have hadj1 : (graphOfEdges T1).Adj u v := ⟨hu_ne_v, hgT1⟩
      have hsingle : (SimpleGraph.Path.singleton hadj1) =
          (⟨_, hpath1⟩ : (graphOfEdges T1).Path u v) :=
        h1.1.2.2.path_unique _ _
      have hh := congrArg
        (fun p : (graphOfEdges T1).Path u v => SimpleGraph.Walk.edges p.val)
        hsingle
      simp only at hh
      have hedges : s(u, v) ∈ (W0.bypass.transfer _ hsub2).edges := by
        rw [← hh]
        exact List.mem_singleton_self _
      rw [SimpleGraph.Walk.edges_transfer] at hedges
      exact hgT2 ((W0.bypass.adj_of_mem_edges hedges).2)
    obtain ⟨f, hfW, hfT1⟩ := hex
    have hfT2 : f ∈ T2 :=
      mem_of_mem_edgeSet_graphOfEdges (W0.bypass.edges_subset_edgeSet hfW)
    have hfD : f ∈ (T1 \ T2) ∪ (T2 \ T1) :=
      Finset.mem_union.mpr (Or.inr (Finset.mem_sdiff.mpr ⟨hfT2, hfT1⟩))
    have hf_ok : edgeOK A f := h2.1.1 _ hfT2
    have hne_f : s(u, v) ≠ f := fun hc => hgT2 (hc ▸ hfT2)
    have hlt : wS A s(u, v) < wS A f :=
      lt_of_le_of_ne (hmin f hfD)
        (fun hc => hne_f (hdistS _ _ hg_ok hf_ok hc))
    obtain ⟨hsp', hw'⟩ := swap_spanning_tree h2.1 hg_ok hgT2 hWp hfW
    have hw2 : weightS A (insert s(u, v) (T2.erase f)) < weightS A T2 := by
      rw [hw']
      linarith
    have hge := h2.2 _ hsp'
    linarith

/-- With pairwise-distinct weights the minimum spanning tree is unique. -/
theorem isMST_unique {n : ℕ} {A : Mat n} (hsym : ∀ i j, A i j = A j i)
    (hdistS : ∀ e f, edgeOK A e → edgeOK A f → wS A e = wS A f → e = f)
    {T1 T2 : Finset (Sym2 (Fin n))} (h1 : IsMST A T1) (h2 : IsMST A T2) :
    T1 = T2 := by
  by_contra hne
  have hD : ((T1 \ T2) ∪ (T2 \ T1)).Nonempty := by
    rw [Finset.nonempty_iff_ne_empty]
    intro hemp
    rw [Finset.union_eq_empty] at hemp
    exact hne (Finset.Subset.antisymm
      (Finset.sdiff_eq_empty_iff_subset.mp hemp.1)
      (Finset.sdiff_eq_empty_iff_subset.mp hemp.2))
  obtain ⟨g, hgD, hgmin⟩ := Finset.exists_min_image _ (wS A) hD
  rcases Finset.mem_union.mp hgD with hg | hg
  · exact mst_unique_contra hsym hdistS h1 h2 hg hgmin
  · exact mst_unique_contra hsym hdistS h2 h1 hg
      (fun g' hg' => hgmin g'
        (Finset.mem_union.mpr ((Finset.mem_union.mp hg').symm)))

/-- C5: for a connected graph with pairwise-distinct edge weights (valid:
symmetric, non-negative, zero diagonal), running `construct_mst` from any two
start vertices produces entrywise identical result matrices. -/
theorem construct_mst_start_independent {n : ℕ} (A : Mat n) (s t : Fin n)
    (hsym : ∀ i j, A i j = A j i) (hnn : ∀ i j, 0 ≤ A i j)
    (hdiag : ∀ i, A i i = 0)
    (hdist : ∀ i j k l, 0 < A i j → 0 < A k l → A i j = A k l →
      s(i, j) = s(k, l))
    (hconns : ConnectedFrom A s) (hconnt : ConnectedFrom A t) :
    ∃ M1 M2, construct A s = .ok M1 ∧ construct A t = .ok M2 ∧
      ∀ i j, M1 i j = M2 i j := by
  obtain ⟨M1, hok1, hmst1, hsymm1, hval1, hdiag1⟩ :=
    construct_mst_core A s hsym hdiag hconns
  obtain ⟨M2, hok2, hmst2, hsymm2, hval2, hdiag2⟩ :=
    construct_mst_core A t hsym hdiag hconnt
  have hdistS : ∀ e f, edgeOK A e → edgeOK A f → wS A e = wS A f → e = f := by
    intro e f he hf hw
    induction e using Sym2.ind with
    | _ a b =>
      induction f using Sym2.ind with
      | _ c d =>
        rw [wS_mk_symm hsym, wS_mk_symm hsym] at hw
        have hab : 0 < A a b := by
          have hh := he.2
          rwa [wS_mk_symm hsym] at hh
        have hcd : 0 < A c d := by
          have hh := hf.2
          rwa [wS_mk_symm hsym] at hh
        exact hdist a b c d hab hcd hw
  have hE : edgesOf M1 = edgesOf M2 := isMST_unique hsym hdistS hmst1 hmst2
  refine ⟨M1, M2, hok1, hok2, fun i j => ?_⟩
  by_cases hij : i = j
  · rw [hij, hdiag1, hdiag2]
  · by_cases h1 : M1 i j = 0
    · rw [h1]
      by_contra h2
      have h2ne : M2 i j ≠ 0 := fun hc => h2 hc.symm
      have hpos2 : 0 < M2 i j := by
        rw [(hval2 i j h2ne).1]
        exact (hval2 i j h2ne).2
      have hmem2 : s(i, j) ∈ edgesOf M2 :=
        (mem_edgesOf_mk hsymm2).mpr ⟨hij, hpos2⟩
      rw [← hE] at hmem2
      exact absurd h1 (ne_of_gt ((mem_edgesOf_mk hsymm1).mp hmem2).2)
    · have hpos1 : 0 < M1 i j := by
        rw [(hval1 i j h1).1]
        exact (hval1 i j h1).2
      have hmem1 : s(i, j) ∈ edgesOf M1 :=
        (mem_edgesOf_mk hsymm1).mpr ⟨hij, hpos1⟩
      rw [hE] at hmem1
      have h2ne : M2 i j ≠ 0 :=
        ne_of_gt ((mem_edgesOf_mk hsymm2).mp hmem1).2
      rw [(hval1 i j h1).1, (hval2 i j h2ne).1]

/-- Witness for C5 on the 2-vertex path graph, starting from vertices 0
and 1. -/
theorem construct_mst_start_independent_witness :
    (∀ i j, pathGraph2 i j = pathGraph2 j i) ∧ (∀ i j, 0 ≤ pathGraph2 i j) ∧
      (∀ i, pathGraph2 i i = 0) ∧
      (∀ i j k l, 0 < pathGraph2 i j → 0 < pathGraph2 k l →
        pathGraph2 i j = pathGraph2 k l → s(i, j) = s(k, l)) ∧
      ConnectedFrom pathGraph2 0 ∧ ConnectedFrom pathGraph2 1 ∧
      ∃ M1 M2, construct pathGraph2 0 = .ok M1 ∧
        construct pathGraph2 1 = .ok M2 ∧ ∀ i j, M1 i j = M2 i j :=
  ⟨by decide, by decide, by decide, by decide, by decide, by decide,
    construct_mst_start_independent pathGraph2 0 1 (by decide) (by decide)
      (by decide) (by decide) (by decide) (by decide)⟩

end MstProj
